import Mathlib

/-!
Shallow embedding of the `fs-hardblast` collision-search engine
(src/main.rs, src/alphabet.rs, src/const_vec.rs, opencl/src/main.rs).

Machine integers are modelled as `Nat` with explicit reduction modulo
`2^32` (u32) or `2^64` (u64) wherever the Rust code performs wrapping
arithmetic.  Vec-based stacks are modelled as lists whose head is the
top of the stack (Rust `Vec::pop` removes the last element, so pushing
a slice corresponds to prepending its reversal).  SIMD vectors are
modelled as lists of lane values; lane-wise operations become maps.
Since the Rust DFS does not terminate for `max_len < 2`, the search
loop takes an explicit fuel parameter and returns `none` when the fuel
runs out before the stack empties.
-/

namespace FsHardblast

/-- `2^32`, the wraparound modulus of all u32 arithmetic in the engine. -/
def W32 : Nat := 4294967296

/-- `2^64`, the wraparound modulus of the packed `Match.bytes_be` word (u64). -/
def W64 : Nat := 18446744073709551616

/-- Not the real FNV prime, but what FromSoft uses (src/main.rs line 25). -/
def FNV_PRIME : Nat := 37

/-- One step of the rolling hash:
`hash.wrapping_mul(FNV_PRIME).wrapping_add(data[i] as u32)` (src/main.rs line 113). -/
def fnv_step (hash b : Nat) : Nat := ((hash * FNV_PRIME) % W32 + b) % W32

/-- `fnv_hash` (src/main.rs lines 109-117): left fold of `fnv_step` from 0. -/
def fnv_hash (data : List Nat) : Nat := data.foldl fnv_step 0

/-- `minv32` (src/main.rs lines 44-55): 32-bit modular inverse by 3
Newton-Raphson iterations.  The Rust code asserts `!a.is_multiple_of(2)`;
oddness is taken as a hypothesis in the theorems about this definition. -/
def minv32 (a : Nat) : Nat :=
  let x := ((3 * a) % W32) ^^^ 2
  let y := (1 + W32 - (a * x) % W32) % W32
  let x := (x * ((y + 1) % W32)) % W32
  let y := (y * y) % W32
  let x := (x * ((y + 1) % W32)) % W32
  let y := (y * y) % W32
  (x * ((y + 1) % W32)) % W32

/-- The `minv32` variant in opencl/src/main.rs lines 201-215, which runs one
more Newton-Raphson iteration than the CPU version. -/
def minv32_ocl (a : Nat) : Nat :=
  let x := ((3 * a) % W32) ^^^ 2
  let y := (1 + W32 - (a * x) % W32) % W32
  let x := (x * ((y + 1) % W32)) % W32
  let y := (y * y) % W32
  let x := (x * ((y + 1) % W32)) % W32
  let y := (y * y) % W32
  let x := (x * ((y + 1) % W32)) % W32
  let y := (y * y) % W32
  (x * ((y + 1) % W32)) % W32

/-- `PrecomputedSuffix` (src/main.rs lines 32-38). -/
structure PrecomputedSuffix where
  hash : Nat
  mult : Nat
  target_shift : Nat
deriving DecidableEq, Repr

/-- `PrecomputedSuffix::new` (src/main.rs lines 41-66).
`wrapping_pow` of the odd base 37 is `37 ^ n % 2^32`, and
`target_hash.wrapping_sub(hash)` is `(target_hash + 2^32 - hash) % 2^32`
(both operands are u32 values, i.e. below `2^32`). -/
def PrecomputedSuffix.new (suffix : List Nat) (target_hash : Nat) : PrecomputedSuffix :=
  let hash := fnv_hash suffix
  let mult := (FNV_PRIME ^ suffix.length) % W32
  let target_shift := (((target_hash + W32 - hash) % W32) * minv32 mult) % W32
  ⟨hash, mult, target_shift⟩

/-- `sort_bytes`'s inner insertion (src/alphabet.rs lines 12-24): the element
`x` is swapped leftwards past every strictly greater element, i.e. it is
inserted after all elements `≤ x` of the already sorted prefix. -/
def insort (x : Nat) : List Nat → List Nat
  | [] => [x]
  | y :: ys => if y ≤ x then y :: insort x ys else x :: y :: ys

/-- `sort_bytes` (src/alphabet.rs lines 12-24): insertion sort, processing the
input left to right and inserting each element into the sorted prefix. -/
def sort_bytes (bytes : List Nat) : List Nat := bytes.foldl (fun acc x => insort x acc) []

/-- `Alphabet` (src/alphabet.rs lines 34-37); a range `start..end` is a pair. -/
structure Alphabet where
  bytes : List Nat
  ranges : List (Nat × Nat)
deriving DecidableEq, Repr

/-- `ranges.index_mut(ranges.len() - 1).end = e` (src/alphabet.rs lines 76, 82). -/
def set_last_end (ranges : List (Nat × Nat)) (e : Nat) : List (Nat × Nat) :=
  match ranges with
  | [] => []
  | [(s, _)] => [(s, e)]
  | r :: rest => r :: set_last_end rest e

/-- The scan of `Alphabet::compute_ranges` (src/alphabet.rs lines 73-80), with
`prev` the previously visited element `sorted[i-1]` and the final
`set_last_end` of line 82 applied when the input runs out. -/
def ranges_loop (acc : List (Nat × Nat)) (prev : Nat) : List Nat → List (Nat × Nat)
  | [] => set_last_end acc (prev + 1)
  | x :: xs =>
    if x ≠ prev + 1 then ranges_loop (set_last_end acc (prev + 1) ++ [(x, 256)]) x xs
    else ranges_loop acc x xs

/-- `Alphabet::compute_ranges` (src/alphabet.rs lines 62-84). -/
def compute_ranges (sorted : List Nat) : List (Nat × Nat) :=
  match sorted with
  | [] => []
  | x :: xs => ranges_loop [(x, 256)] x xs

/-- The duplicate scan of `Alphabet::new` (src/alphabet.rs lines 48-54): note
that the Rust code runs it over the *unsorted* input `bytes`, so it only
detects duplicates that happen to be adjacent in the input order. -/
def hasAdjacentDup : List Nat → Bool
  | [] => false
  | [_] => false
  | x :: y :: rest => x == y || hasAdjacentDup (y :: rest)

/-- `Alphabet::new` (src/alphabet.rs lines 40-60); `panic!` is modelled as
`none`.  The length guard rejects more than 256 entries, and the duplicate
scan is performed on the unsorted input, exactly as in the source. -/
def Alphabet.new (bytes : List Nat) : Option Alphabet :=
  if bytes.length > 256 then none
  else
    let sorted := sort_bytes bytes
    if hasAdjacentDup bytes then none
    else some ⟨sorted, compute_ranges sorted⟩

/-- The downward range scan of `Alphabet::contains` (src/alphabet.rs lines
91-109), expressed as a forward scan of the reversed range list. -/
def contains_aux (char : Nat) : List (Nat × Nat) → Bool
  | [] => false
  | (s, e) :: rest =>
    if char ≥ e then false
    else if char ≥ s then true
    else contains_aux char rest

/-- `Alphabet::contains` (src/alphabet.rs lines 91-109). -/
def Alphabet.contains (a : Alphabet) (char : Nat) : Bool :=
  contains_aux char a.ranges.reverse

/-- `Alphabet::simd_prefilter` (src/alphabet.rs lines 113-124): true iff some
lane is strictly below the end of the highest range; false if there are no
ranges at all. -/
def Alphabet.simd_prefilter (a : Alphabet) (chars : List Nat) : Bool :=
  match a.ranges.getLast? with
  | none => false
  | some (_, e) => chars.any (fun c => decide (c < e))

/-- The chunk-filling loop of `Alphabet::simd_chunks` (src/alphabet.rs lines
134-150): `cur` is the partially filled chunk.  A chunk is emitted when it
reaches `L` elements; the final partial chunk becomes the remainder. -/
def chunks_aux (L : Nat) (cur : List Nat) : List Nat → List (List Nat) × List Nat
  | [] => ([], cur)
  | b :: bs =>
    let cur' := cur ++ [b]
    if cur'.length = L then
      let (cs, r) := chunks_aux L [] bs
      (cur' :: cs, r)
    else chunks_aux L cur' bs

/-- `Alphabet::simd_chunks` (src/alphabet.rs lines 128-151): split the
alphabet bytes into full vectors of `L` lanes plus a scalar remainder. -/
def Alphabet.simd_chunks (a : Alphabet) (L : Nat) : List (List Nat) × List Nat :=
  chunks_aux L [] a.bytes

/-- The byte list of the `ALPHABET` constant
`b"_.abcdefghijklmnopqrstuvwxyz0123456789"` (src/main.rs line 18). -/
def ALPHABET_BYTES : List Nat :=
  [95, 46,
   97, 98, 99, 100, 101, 102, 103, 104, 105, 106, 107, 108, 109, 110,
   111, 112, 113, 114, 115, 116, 117, 118, 119, 120, 121, 122,
   48, 49, 50, 51, 52, 53, 54, 55, 56, 57]

/-- The `ALPHABET` constant (src/main.rs line 18).  `Alphabet::new` succeeds
on this input (proved below), so the default is never used. -/
def ALPHABET : Alphabet := (Alphabet.new ALPHABET_BYTES).getD ⟨[], []⟩

/-- `Match` (src/main.rs lines 70-73). -/
structure Match where
  bytes_be : Nat
  len : Nat
deriving DecidableEq, Repr

/-- `u64::rotate_right` (used by `Match::bytes`): rotation amount is taken
mod 64, and a shift by `(64 - n % 64) % 64` reproduces the wrap-around. -/
def rotr64 (x n : Nat) : Nat :=
  (x >>> (n % 64)) ||| ((x <<< ((64 - n % 64) % 64)) % W64)

/-- `u64::to_be_bytes`: the eight bytes of `x`, most significant first. -/
def toBeBytes64 (x : Nat) : List Nat :=
  [(x >>> 56) % 256, (x >>> 48) % 256, (x >>> 40) % 256, (x >>> 32) % 256,
   (x >>> 24) % 256, (x >>> 16) % 256, (x >>> 8) % 256, x % 256]

/-- `Match::bytes` (src/main.rs lines 76-80). -/
def Match.bytes (m : Match) : List Nat :=
  toBeBytes64 (rotr64 m.bytes_be (8 * m.len))

/-- One SIMD chunk's contribution to the DFS stack (src/main.rs lines
186-197): per lane, `next_hash_base = (hash_base + c) * FNV_PRIME`
(wrapping) and the pushed match appends `c` to the packed bytes.  The
scalar remainder pass (lines 214-224) performs the identical per-element
computation, so it reuses this definition on the remainder list. -/
def chunk_pushes (hb : Nat) (seq : Match) (chunk : List Nat) : List (Nat × Match) :=
  chunk.map (fun c =>
    (((hb + c) * FNV_PRIME) % W32,
     ⟨((seq.bytes_be <<< 8) % W64) ||| c, seq.len + 1⟩))

/-- One SIMD chunk's contribution to the match list (src/main.rs lines
198-212): solve `solutions = target_shift - next_hash_base` per lane, apply
the prefilter to the whole vector, then keep the lanes whose solution is an
alphabet member. -/
def chunk_matches (alpha : Alphabet) (ts hb : Nat) (seq : Match) (chunk : List Nat) :
    List Match :=
  let nhb := chunk.map (fun c => ((hb + c) * FNV_PRIME) % W32)
  let solutions := nhb.map (fun x => (ts + W32 - x) % W32)
  if alpha.simd_prefilter solutions then
    ((solutions.zip chunk).filter (fun p => alpha.contains p.1)).map (fun p =>
      ⟨(((seq.bytes_be <<< 16) % W64) ||| ((p.2 <<< 8) % W64)) ||| p.1, seq.len⟩)
  else []

/-- The scalar remainder's contribution to the match list (src/main.rs lines
225-232): the release-mode `target_shift - next_hash_base` wraps. -/
def rem_matches (alpha : Alphabet) (ts hb : Nat) (seq : Match) (rem : List Nat) :
    List Match :=
  rem.filterMap (fun c =>
    let nhb := ((hb + c) * FNV_PRIME) % W32
    let s := (ts + W32 - nhb) % W32
    if alpha.contains s then
      some ⟨(((seq.bytes_be <<< 16) % W64) ||| ((c <<< 8) % W64)) ||| s, seq.len⟩
    else none)

/-- One iteration of the DFS loop body (src/main.rs lines 177-233) for a
popped pair `(hb, seq)`: returns the entries pushed onto the stack (in push
order: chunks first, then the remainder) and the matches appended to the
result (same order).  The push guard `seq.len != max_len` is identical for
every chunk of one iteration, so it is hoisted out of the chunk loop. -/
def dfs_step (alpha : Alphabet) (L ts max_len : Nat) (hb : Nat) (seq : Match) :
    List (Nat × Match) × List Match :=
  let cr := alpha.simd_chunks L
  let pushes :=
    if seq.len ≠ max_len then
      ((cr.1.map (chunk_pushes hb seq)).flatten ++ chunk_pushes hb seq cr.2)
    else []
  let ms := (cr.1.map (chunk_matches alpha ts hb seq)).flatten ++
    rem_matches alpha ts hb seq cr.2
  (pushes, ms)

/-- The DFS `while let` loop (src/main.rs line 177) with explicit fuel.  The
stack list's head is the top (the end of the Rust `Vec`s), so pushing a
batch prepends its reversal.  `none` means the fuel ran out before the
stack emptied; for `max_len < 2` the Rust loop never terminates, so this
returns `none` for every fuel in that case. -/
def dfs_loop (alpha : Alphabet) (L ts max_len : Nat) :
    Nat → List (Nat × Match) → List Match → Option (List Match)
  | _, [], acc => some acc
  | 0, _ :: _, _ => none
  | fuel + 1, (hb, seq) :: rest, acc =>
    let pm := dfs_step alpha L ts max_len hb seq
    dfs_loop alpha L ts max_len fuel (pm.1.reverse ++ rest) (acc ++ pm.2)

/-- `find_collisions_simd` (src/main.rs lines 131-237).  `pre` is the prefix
byte string.  The checks for the empty string (lines 145-151, comparing
`prefix_hash` against `target_hash`) and for one-character strings (lines
153-161) happen before the DFS; the DFS stack is seeded with
`(prefix_hash_base, Match {bytes_be: 0, len: 2})` (lines 169-173). -/
def find_collisions_simd (L : Nat) (pre suffix : List Nat) (max_len : Nat)
    (target_hash : Nat) (fuel : Nat) : Option (List Match) :=
  let sfx := PrecomputedSuffix.new suffix target_hash
  let prefix_hash := fnv_hash pre
  let matches0 : List Match := if prefix_hash = target_hash then [⟨0, 0⟩] else []
  let prefix_hash_base := (prefix_hash * FNV_PRIME) % W32
  let one_length_collision := (sfx.target_shift + W32 - prefix_hash_base) % W32
  let matches1 : List Match :=
    if ALPHABET.contains one_length_collision then [⟨one_length_collision, 1⟩] else []
  dfs_loop ALPHABET L sfx.target_shift max_len fuel
    [(prefix_hash_base, ⟨0, 2⟩)] (matches0 ++ matches1)

/-- Big-endian value of a byte string: the packed `bytes_be` accumulated by
the DFS for a match whose characters are `chars` (low byte = last char). -/
def beVal (chars : List Nat) : Nat := chars.foldl (fun a b => a * 256 + b) 0

/-! ### Generic arithmetic and bit-manipulation lemmas -/

lemma W32_pos : 0 < W32 := by norm_num [W32]

instance : NeZero W32 := ⟨by norm_num [W32]⟩

lemma testBit_mul_pow_add_lt {a b k i : Nat} (hik : i < k) :
    (a * 2 ^ k + b).testBit i = b.testBit i := by
  rw [Nat.testBit_to_div_mod, Nat.testBit_to_div_mod]
  have h2 : a * 2 ^ k = 2 ^ i * (a * 2 ^ (k - i)) := by
    have h5 : (2 : Nat) ^ k = 2 ^ i * 2 ^ (k - i) := by
      rw [← pow_add, Nat.add_sub_cancel' hik.le]
    rw [h5]; ring
  rw [h2, Nat.mul_add_div (Nat.two_pow_pos i)]
  have h3 : a * 2 ^ (k - i) % 2 = 0 := by
    obtain ⟨d, hd⟩ : ∃ d, k - i = d + 1 := ⟨k - i - 1, by omega⟩
    have h4 : a * 2 ^ (k - i) = 2 * (a * 2 ^ d) := by
      rw [hd, pow_succ]; ring
    omega
  rw [decide_eq_decide]
  omega

lemma testBit_mul_pow_add_ge {a b k i : Nat} (hb : b < 2 ^ k) (hik : k ≤ i) :
    (a * 2 ^ k + b).testBit i = a.testBit (i - k) := by
  rw [Nat.testBit_to_div_mod, Nat.testBit_to_div_mod]
  have h2 : (2 : Nat) ^ i = 2 ^ k * 2 ^ (i - k) := by
    rw [← pow_add]; congr 1; omega
  rw [h2, ← Nat.div_div_eq_div_mul, Nat.mul_comm a, Nat.mul_add_div (Nat.two_pow_pos k),
    Nat.div_eq_of_lt hb, Nat.add_zero]

/-- Bitwise-or of a left shift with a value that fits entirely below the
shift amount is plain addition. -/
lemma shiftLeft_or_of_lt {a b k : Nat} (hb : b < 2 ^ k) :
    (a <<< k) ||| b = a * 2 ^ k + b := by
  apply Nat.eq_of_testBit_eq
  intro i
  rw [Nat.testBit_or, Nat.shiftLeft_eq]
  rcases Nat.lt_or_ge i k with h | h
  · rw [testBit_mul_pow_add_lt h]
    have h0 : (a * 2 ^ k).testBit i = false := by
      have h1 := testBit_mul_pow_add_lt (a := a) (b := 0) h
      simpa using h1
    rw [h0, Bool.false_or]
  · have hbf : b.testBit i = false :=
      Nat.testBit_lt_two_pow (lt_of_lt_of_le hb (Nat.pow_le_pow_right (by norm_num) h))
    rw [hbf, Bool.or_false, testBit_mul_pow_add_ge hb h]
    have h1 := testBit_mul_pow_add_ge (a := a) (b := 0) (Nat.two_pow_pos k) h
    simpa using h1

lemma xor_mod_two_pow (x y n : Nat) : (x ^^^ y) % 2 ^ n = x % 2 ^ n ^^^ y % 2 ^ n := by
  apply Nat.eq_of_testBit_eq
  intro i
  simp only [Nat.testBit_mod_two_pow, Nat.testBit_xor]
  by_cases h : i < n <;> simp [h]

lemma xor_two_mod16 (u : Nat) : (u ^^^ 2) % 16 = u % 16 ^^^ 2 := by
  have h := xor_mod_two_pow u 2 4
  norm_num at h
  exact h

/-! ### Rolling hash lemmas -/

lemma fnv_step_lt (h b : Nat) : fnv_step h b < W32 := Nat.mod_lt _ W32_pos

lemma fnv_fold_lt {h : Nat} (hs : h < W32) (l : List Nat) : l.foldl fnv_step h < W32 := by
  induction l generalizing h with
  | nil => simpa
  | cons b bs ih => exact ih (fnv_step_lt h b)

lemma fnv_hash_lt (l : List Nat) : fnv_hash l < W32 := fnv_fold_lt W32_pos l

lemma cast_fnv_step (h b : Nat) :
    ((fnv_step h b : Nat) : ZMod W32) = h * (FNV_PRIME : Nat) + b := by
  rw [fnv_step, ZMod.natCast_mod]
  push_cast [ZMod.natCast_mod]
  ring

/-- Cast of a u32 wrapping subtraction `x.wrapping_sub(y)` with `y < 2^32`. -/
lemma cast_wsub (x y : Nat) (hy : y < W32) :
    (((x + W32 - y) % W32 : Nat) : ZMod W32) = (x : ZMod W32) - y := by
  rw [ZMod.natCast_mod, Nat.cast_sub (by omega)]
  push_cast
  rw [ZMod.natCast_self]
  ring

/-- The rolling hash is affine in its starting state. -/
lemma cast_foldl_fnv (l : List Nat) (h : Nat) :
    ((l.foldl fnv_step h : Nat) : ZMod W32) =
      (h : ZMod W32) * ((FNV_PRIME : Nat) : ZMod W32) ^ l.length + (fnv_hash l : ZMod W32) := by
  induction l generalizing h with
  | nil => simp [fnv_hash]
  | cons b bs ih =>
    rw [List.foldl_cons, ih, cast_fnv_step]
    rw [show fnv_hash (b :: bs) = bs.foldl fnv_step (fnv_step 0 b) from rfl, ih, cast_fnv_step]
    push_cast
    rw [List.length_cons]
    ring

/-! ### Correctness of the Newton-Raphson modular inverse -/

/-- The initial approximation `3a ^ 2` is an inverse of odd `a` mod 16,
checked on all odd residues. -/
lemma odd_mod16_inv (r : Nat) (hr : r < 16) (ho : r % 2 = 1) :
    r * (3 * r % 16 ^^^ 2) % 16 = 1 := by
  interval_cases r <;> revert ho <;> decide

lemma minv_init (a : Nat) (ho : a % 2 = 1) :
    a * (3 * a % W32 ^^^ 2) % 16 = 1 := by
  have h16 : (16 : Nat) ∣ W32 := by norm_num [W32]
  have hx : (3 * a % W32 ^^^ 2) % 16 = 3 * (a % 16) % 16 ^^^ 2 := by
    rw [xor_two_mod16, Nat.mod_mod_of_dvd _ h16, Nat.mul_mod 3 a 16]
  rw [Nat.mul_mod, hx]
  have hr : a % 16 < 16 := Nat.mod_lt _ (by norm_num)
  have hro : a % 16 % 2 = 1 := by
    rw [Nat.mod_mod_of_dvd _ (by norm_num : (2 : Nat) ∣ 16)]
    exact ho
  have h := odd_mod16_inv (a % 16) hr hro
  rw [Nat.mul_mod] at h
  simpa using h

/-- One Newton-Raphson refinement of the candidate inverse (proof helper;
this matches the wrapping `x.wrapping_mul(y.wrapping_add(1))` update). -/
def nx (x y : Nat) : Nat := x * ((y + 1) % W32) % W32

/-- One squaring of the error term (proof helper). -/
def ny (y : Nat) : Nat := y * y % W32

lemma cast_nx (x y : Nat) :
    ((nx x y : Nat) : ZMod W32) = (x : ZMod W32) * (y + 1) := by
  rw [nx, ZMod.natCast_mod]
  push_cast [ZMod.natCast_mod]
  ring

lemma cast_ny (y : Nat) : ((ny y : Nat) : ZMod W32) = (y : ZMod W32) * y := by
  rw [ny, ZMod.natCast_mod]
  push_cast
  ring

/-- If `y` is the error of candidate inverse `x`, the refined candidate
`nx x y` has error `y * y`. -/
lemma newton_step_err (A : ZMod W32) (x y : Nat)
    (h : 1 - A * ((x : Nat) : ZMod W32) = ((y : Nat) : ZMod W32)) :
    1 - A * ((nx x y : Nat) : ZMod W32) = ((ny y : Nat) : ZMod W32) := by
  rw [cast_nx, cast_ny, ← h]
  ring

lemma y0_div16 (a : Nat) (ho : a % 2 = 1) :
    16 ∣ (1 + W32 - a * (3 * a % W32 ^^^ 2) % W32) % W32 := by
  have h1 := minv_init a ho
  have hz : a * (3 * a % W32 ^^^ 2) % W32 % 16 = 1 := by
    rw [Nat.mod_mod_of_dvd _ (by norm_num [W32] : (16 : Nat) ∣ W32)]
    exact h1
  have hzlt : a * (3 * a % W32 ^^^ 2) % W32 < W32 := Nat.mod_lt _ W32_pos
  rw [Nat.dvd_iff_mod_eq_zero]
  revert hz hzlt
  rw [show W32 = 4294967296 from rfl]
  omega

lemma y0_err (a : Nat) :
    1 - (a : ZMod W32) * ((3 * a % W32 ^^^ 2 : Nat) : ZMod W32) =
      (((1 + W32 - a * (3 * a % W32 ^^^ 2) % W32) % W32 : Nat) : ZMod W32) := by
  rw [cast_wsub _ _ (Nat.mod_lt _ W32_pos)]
  push_cast [ZMod.natCast_mod]
  ring

/-- `minv32` written as initial approximation plus three refinement steps. -/
lemma minv32_as_chain (a : Nat) :
    minv32 a =
      nx (nx (nx (3 * a % W32 ^^^ 2) ((1 + W32 - a * (3 * a % W32 ^^^ 2) % W32) % W32))
            (ny ((1 + W32 - a * (3 * a % W32 ^^^ 2) % W32) % W32)))
        (ny (ny ((1 + W32 - a * (3 * a % W32 ^^^ 2) % W32) % W32))) := rfl

/-- `minv32_ocl` is the same chain with one more refinement step. -/
lemma minv32_ocl_as_chain (a : Nat) :
    minv32_ocl a =
      nx (nx (nx (nx (3 * a % W32 ^^^ 2)
                   ((1 + W32 - a * (3 * a % W32 ^^^ 2) % W32) % W32))
               (ny ((1 + W32 - a * (3 * a % W32 ^^^ 2) % W32) % W32)))
           (ny (ny ((1 + W32 - a * (3 * a % W32 ^^^ 2) % W32) % W32))))
        (ny (ny (ny ((1 + W32 - a * (3 * a % W32 ^^^ 2) % W32) % W32)))) := rfl

lemma cast_ny_ny_ny (y : Nat) :
    ((ny (ny (ny y)) : Nat) : ZMod W32) = ((y : ZMod W32)) ^ 8 := by
  rw [cast_ny, cast_ny, cast_ny]
  ring

lemma cast_ny4 (y : Nat) :
    ((ny (ny (ny (ny y))) : Nat) : ZMod W32) = ((y : ZMod W32)) ^ 16 := by
  rw [cast_ny, cast_ny_ny_ny]
  ring

/-- Core correctness of the CPU `minv32`: three Newton-Raphson steps from the
`3a ^ 2` seed invert any odd `a` modulo `2^32`. -/
lemma minv32_mul_eq_one (a : Nat) (ho : a % 2 = 1) : a * minv32 a % W32 = 1 := by
  have e0 := y0_err a
  have e1 := newton_step_err _ _ _ e0
  have e2 := newton_step_err _ _ _ e1
  have e3 := newton_step_err _ _ _ e2
  have hy8 : ((ny (ny (ny ((1 + W32 - a * (3 * a % W32 ^^^ 2) % W32) % W32))) : Nat) :
      ZMod W32) = 0 := by
    rw [cast_ny_ny_ny]
    rw [show (((((1 + W32 - a * (3 * a % W32 ^^^ 2) % W32) % W32 : Nat)) : ZMod W32)) ^ 8 =
      ((((1 + W32 - a * (3 * a % W32 ^^^ 2) % W32) % W32) ^ 8 : Nat) : ZMod W32) by push_cast; ring]
    rw [ZMod.natCast_zmod_eq_zero_iff_dvd]
    have hdvd := pow_dvd_pow_of_dvd (y0_div16 a ho) 8
    calc W32 = 16 ^ 8 := by norm_num [W32]
    _ ∣ _ := hdvd
  rw [← e3, ← minv32_as_chain] at hy8
  have hone : ((a * minv32 a : Nat) : ZMod W32) = ((1 : Nat) : ZMod W32) := by
    push_cast
    linear_combination -hy8
  have hmod := (ZMod.natCast_eq_natCast_iff _ _ _).mp hone
  rw [Nat.ModEq] at hmod
  rw [hmod]
  norm_num [W32]

/-- Core correctness of the OpenCL `minv32` (four Newton-Raphson steps). -/
lemma minv32_ocl_mul_eq_one (a : Nat) (ho : a % 2 = 1) : a * minv32_ocl a % W32 = 1 := by
  have e0 := y0_err a
  have e1 := newton_step_err _ _ _ e0
  have e2 := newton_step_err _ _ _ e1
  have e3 := newton_step_err _ _ _ e2
  have e4 := newton_step_err _ _ _ e3
  have hy16 : ((ny (ny (ny (ny ((1 + W32 - a * (3 * a % W32 ^^^ 2) % W32) % W32)))) : Nat) :
      ZMod W32) = 0 := by
    rw [cast_ny4]
    rw [show (((((1 + W32 - a * (3 * a % W32 ^^^ 2) % W32) % W32 : Nat)) : ZMod W32)) ^ 16 =
      ((((1 + W32 - a * (3 * a % W32 ^^^ 2) % W32) % W32) ^ 16 : Nat) : ZMod W32) by
        push_cast; ring]
    rw [ZMod.natCast_zmod_eq_zero_iff_dvd]
    have hdvd := pow_dvd_pow_of_dvd (y0_div16 a ho) 16
    calc W32 ∣ 16 ^ 16 := by norm_num [W32]
    _ ∣ _ := hdvd
  rw [← e4, ← minv32_ocl_as_chain] at hy16
  have hone : ((a * minv32_ocl a : Nat) : ZMod W32) = ((1 : Nat) : ZMod W32) := by
    push_cast
    linear_combination -hy16
  have hmod := (ZMod.natCast_eq_natCast_iff _ _ _).mp hone
  rw [Nat.ModEq] at hmod
  rw [hmod]
  norm_num [W32]

/-! ### Insertion sort lemmas -/

lemma insort_perm (x : Nat) (l : List Nat) : List.Perm (insort x l) (x :: l) := by
  induction l with
  | nil => rfl
  | cons y ys ih =>
    rw [insort]
    split
    · exact List.Perm.trans (List.Perm.cons y ih) (List.Perm.swap x y ys)
    · rfl

lemma insort_sorted {l : List Nat} (x : Nat) (h : l.Sorted (· ≤ ·)) :
    (insort x l).Sorted (· ≤ ·) := by
  induction l with
  | nil => simp [insort]
  | cons y ys ih =>
    rw [List.sorted_cons] at h
    rw [insort]
    split
    case isTrue hyx =>
      rw [List.sorted_cons]
      refine ⟨?_, ih h.2⟩
      intro b hb
      rcases List.mem_cons.mp ((insort_perm x ys).mem_iff.mp hb) with rfl | hbys
      · exact hyx
      · exact h.1 b hbys
    case isFalse hyx =>
      rw [List.sorted_cons]
      refine ⟨?_, List.sorted_cons.mpr h⟩
      intro b hb
      rcases List.mem_cons.mp hb with rfl | hbys
      · omega
      · exact le_trans (by omega) (h.1 b hbys)

lemma sort_bytes_aux (l : List Nat) : ∀ acc : List Nat, acc.Sorted (· ≤ ·) →
    (l.foldl (fun acc x => insort x acc) acc).Sorted (· ≤ ·) ∧
    List.Perm (l.foldl (fun acc x => insort x acc) acc) (acc ++ l) := by
  induction l with
  | nil =>
    intro acc h
    simpa using h
  | cons b bs ih =>
    intro acc h
    rw [List.foldl_cons]
    obtain ⟨hs, hp⟩ := ih (insort b acc) (insort_sorted b h)
    refine ⟨hs, ?_⟩
    refine List.Perm.trans hp (List.Perm.trans ((insort_perm b acc).append_right bs) ?_)
    exact List.perm_middle.symm

lemma sort_bytes_sorted (l : List Nat) : (sort_bytes l).Sorted (· ≤ ·) :=
  (sort_bytes_aux l [] (by simp)).1

lemma sort_bytes_perm (l : List Nat) : List.Perm (sort_bytes l) l := by
  have h := (sort_bytes_aux l [] (by simp)).2
  simpa [sort_bytes] using h

/-! ### Range computation and membership -/

lemma set_last_end_append (init : List (Nat × Nat)) (s e0 e : Nat) :
    set_last_end (init ++ [(s, e0)]) e = init ++ [(s, e)] := by
  induction init with
  | nil => rfl
  | cons r rest ih =>
    cases rest with
    | nil => rfl
    | cons r2 rest2 =>
      show r :: set_last_end ((r2 :: rest2) ++ [(s, e0)]) e = r :: ((r2 :: rest2) ++ [(s, e)])
      exact congrArg _ ih

/-- Specification-side form of `ranges_loop`: the ranges contributed by the
run currently open at `s` (ending at `prev` so far) and the rest of the
sorted input. -/
def run_ranges (s prev : Nat) : List Nat → List (Nat × Nat)
  | [] => [(s, prev + 1)]
  | x :: xs => if x ≠ prev + 1 then (s, prev + 1) :: run_ranges x x xs else run_ranges s x xs

lemma ranges_loop_eq (xs : List Nat) : ∀ (init : List (Nat × Nat)) (s prev : Nat),
    ranges_loop (init ++ [(s, 256)]) prev xs = init ++ run_ranges s prev xs := by
  induction xs with
  | nil =>
    intro init s prev
    simp [ranges_loop, run_ranges, set_last_end_append]
  | cons x xs ih =>
    intro init s prev
    simp only [ranges_loop, run_ranges]
    by_cases h : x ≠ prev + 1
    · rw [if_pos h, if_pos h, set_last_end_append, ih (init ++ [(s, prev + 1)]) x x]
      simp
    · rw [if_neg h, if_neg h, ih]

lemma compute_ranges_eq (x : Nat) (xs : List Nat) :
    compute_ranges (x :: xs) = run_ranges x x xs := by
  have h := ranges_loop_eq xs [] x x
  simpa [compute_ranges] using h

lemma mem_run_ranges (v : Nat) : ∀ (xs : List Nat) (s prev : Nat), s ≤ prev →
    List.Chain (· < ·) prev xs →
    ((∃ p ∈ run_ranges s prev xs, p.1 ≤ v ∧ v < p.2) ↔ (s ≤ v ∧ v ≤ prev) ∨ v ∈ xs) := by
  intro xs
  induction xs with
  | nil =>
    intro s prev hsp _
    simp only [run_ranges, List.mem_singleton, List.not_mem_nil, or_false]
    constructor
    · rintro ⟨p, rfl, h1, h2⟩
      exact ⟨h1, by omega⟩
    · rintro ⟨h1, h2⟩
      exact ⟨(s, prev + 1), rfl, h1, by omega⟩
  | cons x xs ih =>
    intro s prev hsp hch
    rw [List.chain_cons] at hch
    obtain ⟨hpx, hch⟩ := hch
    simp only [run_ranges, List.mem_cons]
    by_cases h : x ≠ prev + 1
    · rw [if_pos h, List.exists_mem_cons_iff, ih x x le_rfl hch]
      constructor
      · rintro (⟨h1, h2⟩ | ⟨h1, h2⟩ | h1)
        · exact Or.inl ⟨h1, by omega⟩
        · exact Or.inr (Or.inl (by omega))
        · exact Or.inr (Or.inr h1)
      · rintro (⟨h1, h2⟩ | rfl | h1)
        · exact Or.inl ⟨h1, by omega⟩
        · exact Or.inr (Or.inl ⟨le_rfl, le_rfl⟩)
        · exact Or.inr (Or.inr h1)
    · push_neg at h
      rw [if_neg (by omega), ih s x (by omega) hch]
      constructor
      · rintro (⟨h1, h2⟩ | h1)
        · rcases Nat.lt_or_ge v x with h3 | h3
          · exact Or.inl ⟨h1, by omega⟩
          · exact Or.inr (Or.inl (by omega))
        · exact Or.inr (Or.inr h1)
      · rintro (⟨h1, h2⟩ | rfl | h1)
        · exact Or.inl ⟨h1, by omega⟩
        · exact Or.inl ⟨by omega, le_rfl⟩
        · exact Or.inr h1

lemma run_ranges_props : ∀ (xs : List Nat) (s prev : Nat), s ≤ prev →
    List.Chain (· < ·) prev xs →
    (run_ranges s prev xs).Pairwise (fun p q => p.2 ≤ q.1) ∧
    ∀ p ∈ run_ranges s prev xs, p.1 < p.2 ∧ s ≤ p.1 := by
  intro xs
  induction xs with
  | nil =>
    intro s prev hsp _
    refine ⟨List.pairwise_singleton _ _, ?_⟩
    intro p hp
    rw [run_ranges, List.mem_singleton] at hp
    subst hp
    exact ⟨by omega, le_rfl⟩
  | cons x xs ih =>
    intro s prev hsp hch
    rw [List.chain_cons] at hch
    obtain ⟨hpx, hch⟩ := hch
    simp only [run_ranges]
    by_cases h : x ≠ prev + 1
    · rw [if_pos h]
      obtain ⟨hpw, hall⟩ := ih x x le_rfl hch
      refine ⟨List.pairwise_cons.mpr ⟨?_, hpw⟩, ?_⟩
      · intro q hq
        have h2 := (hall q hq).2
        omega
      · intro p hp
        rcases List.mem_cons.mp hp with rfl | hp
        · exact ⟨by omega, le_rfl⟩
        · obtain ⟨h1, h2⟩ := hall p hp
          exact ⟨h1, by omega⟩
    · rw [if_neg h]
      exact ih s x (by omega) hch

lemma run_ranges_ends : ∀ (xs : List Nat) (s prev : Nat),
    (∀ y ∈ xs, y < 256) → prev < 256 → ∀ p ∈ run_ranges s prev xs, p.2 ≤ 256 := by
  intro xs
  induction xs with
  | nil =>
    intro s prev _ hp p hm
    rw [run_ranges, List.mem_singleton] at hm
    subst hm
    omega
  | cons x xs ih =>
    intro s prev hx hp p hm
    simp only [run_ranges] at hm
    by_cases h : x ≠ prev + 1
    · rw [if_pos h] at hm
      rcases List.mem_cons.mp hm with rfl | hm
      · omega
      · exact ih x x (fun y hy => hx y (List.mem_cons_of_mem x hy))
          (hx x (List.mem_cons_self x xs)) p hm
    · rw [if_neg h] at hm
      exact ih s x (fun y hy => hx y (List.mem_cons_of_mem x hy))
        (hx x (List.mem_cons_self x xs)) p hm

lemma contains_aux_iff (v : Nat) : ∀ (R : List (Nat × Nat)),
    R.Pairwise (fun p q => q.2 ≤ p.1) →
    (∀ p ∈ R, p.1 < p.2) →
    (contains_aux v R = true ↔ ∃ p ∈ R, p.1 ≤ v ∧ v < p.2) := by
  intro R
  induction R with
  | nil => simp [contains_aux]
  | cons p rest ih =>
    intro hpw hlt
    obtain ⟨hp1, hpw2⟩ := List.pairwise_cons.mp hpw
    obtain ⟨s, e⟩ := p
    rw [contains_aux]
    by_cases h1 : v ≥ e
    · rw [if_pos h1]
      constructor
      · intro h
        exact absurd h (by simp)
      · rintro ⟨q, hq, hq1, hq2⟩
        exfalso
        rcases List.mem_cons.mp hq with rfl | hq
        · omega
        · have h2 := hp1 q hq
          have h3 := hlt (s, e) (List.mem_cons_self _ _)
          simp only at h2 h3
          omega
    · rw [if_neg h1]
      by_cases h2 : v ≥ s
      · rw [if_pos h2]
        simp only [true_iff]
        exact ⟨(s, e), List.mem_cons_self _ _, h2, by omega⟩
      · rw [if_neg h2]
        rw [ih hpw2 (fun q hq => hlt q (List.mem_cons_of_mem _ hq))]
        constructor
        · rintro ⟨q, hq, hq2⟩
          exact ⟨q, List.mem_cons_of_mem _ hq, hq2⟩
        · rintro ⟨q, hq, hq2⟩
          rcases List.mem_cons.mp hq with rfl | hq
          · omega
          · exact ⟨q, hq, hq2⟩

/-- Unpacking a successful `Alphabet::new`. -/
lemma new_eq_some {bs : List Nat} {A : Alphabet} (h : Alphabet.new bs = some A) :
    A.bytes = sort_bytes bs ∧ A.ranges = compute_ranges (sort_bytes bs) := by
  rw [Alphabet.new] at h
  split at h
  · exact absurd h (by simp)
  · split at h
    · exact absurd h (by simp)
    · obtain rfl := Option.some_injective _ h.symm
      exact ⟨rfl, rfl⟩

lemma sorted_chain_of_nodup {x : Nat} {xs : List Nat}
    (hs : (x :: xs).Sorted (· ≤ ·)) (hn : (x :: xs).Nodup) :
    List.Chain (· < ·) x xs := by
  have hlt : (x :: xs).Sorted (· < ·) := by
    rw [List.Sorted] at hs ⊢
    rw [List.Nodup] at hn
    have hand := hs.and hn
    exact hand.imp (fun h => lt_of_le_of_ne h.1 h.2)
  have hch : List.Chain' (· < ·) (x :: xs) :=
    List.chain'_iff_pairwise.mpr hlt
  exact hch

/-- Membership correctness of `Alphabet::contains` for an alphabet built
from duplicate-free bytes: it agrees with membership in the input list. -/
lemma contains_iff_mem {bs : List Nat} {A : Alphabet} (h : Alphabet.new bs = some A)
    (hnd : bs.Nodup) (v : Nat) : A.contains v = true ↔ v ∈ bs := by
  obtain ⟨hb, hr⟩ := new_eq_some h
  have hperm := sort_bytes_perm bs
  have hsort := sort_bytes_sorted bs
  have hnd2 : (sort_bytes bs).Nodup := hperm.nodup_iff.mpr hnd
  rw [Alphabet.contains, hr]
  cases hsb : sort_bytes bs with
  | nil =>
    rw [hsb] at hperm
    have hbs : bs = [] := hperm.symm.eq_nil
    simp [compute_ranges, contains_aux, hbs]
  | cons x xs =>
    rw [hsb] at hperm hsort hnd2
    have hch := sorted_chain_of_nodup hsort hnd2
    obtain ⟨hpw, hprops⟩ := run_ranges_props xs x x le_rfl hch
    rw [compute_ranges_eq]
    rw [contains_aux_iff v _ (List.pairwise_reverse.mpr hpw)
      (fun p hp => (hprops p (List.mem_reverse.mp hp)).1)]
    have hmem := mem_run_ranges v xs x x le_rfl hch
    constructor
    · rintro ⟨p, hp, hcond⟩
      have h2 := hmem.mp ⟨p, List.mem_reverse.mp hp, hcond⟩
      apply hperm.mem_iff.mp
      rcases h2 with ⟨h3, h4⟩ | h3
      · rw [List.mem_cons]
        exact Or.inl (by omega)
      · exact List.mem_cons_of_mem x h3
    · intro hv
      have hv2 : v ∈ x :: xs := hperm.mem_iff.mpr hv
      have h2 : (x ≤ v ∧ v ≤ x) ∨ v ∈ xs := by
        rcases List.mem_cons.mp hv2 with rfl | h3
        · exact Or.inl ⟨le_rfl, le_rfl⟩
        · exact Or.inr h3
      obtain ⟨p, hp, hcond⟩ := hmem.mpr h2
      exact ⟨p, List.mem_reverse.mpr hp, hcond⟩

/-- Values at or above 256 are never members: every range end computed by
`compute_ranges` is at most 256 when all input bytes are below 256. -/
lemma contains_ge256 {bs : List Nat} {A : Alphabet} (h : Alphabet.new bs = some A)
    (hlt : ∀ b ∈ bs, b < 256) {v : Nat} (hv : 256 ≤ v) : A.contains v = false := by
  obtain ⟨hb, hr⟩ := new_eq_some h
  have hperm := sort_bytes_perm bs
  rw [Alphabet.contains, hr]
  cases hsb : sort_bytes bs with
  | nil => simp [compute_ranges, contains_aux]
  | cons x xs =>
    rw [hsb] at hperm
    have hlt2 : ∀ y ∈ x :: xs, y < 256 := fun y hy => hlt y (hperm.mem_iff.mp hy)
    have hends := run_ranges_ends xs x x
      (fun y hy => hlt2 y (List.mem_cons_of_mem x hy)) (hlt2 x (List.mem_cons_self x xs))
    rw [compute_ranges_eq]
    cases hrev : (run_ranges x x xs).reverse with
    | nil => simp [contains_aux]
    | cons p rest =>
      obtain ⟨s, e⟩ := p
      have hpmem : (s, e) ∈ run_ranges x x xs := by
        rw [← List.mem_reverse, hrev]
        exact List.mem_cons_self _ _
      have he := hends _ hpmem
      rw [contains_aux, if_pos (by omega : v ≥ e)]

/-! ### Prefilter soundness -/

/-- If the SIMD prefilter rejects a batch, no value in the batch is a
member: a false result means every lane is at or above the end of the
highest range, and `contains` immediately fails that comparison. -/
lemma simd_prefilter_sound {A : Alphabet} {chars : List Nat}
    (h : A.simd_prefilter chars = false) {v : Nat} (hv : v ∈ chars) :
    A.contains v = false := by
  rw [Alphabet.simd_prefilter] at h
  rw [Alphabet.contains]
  cases hg : A.ranges.getLast? with
  | none =>
    have hnil : A.ranges = [] := List.getLast?_eq_none_iff.mp hg
    rw [hnil]
    rfl
  | some p =>
    obtain ⟨s, e⟩ := p
    rw [hg] at h
    simp only [] at h
    have hge : e ≤ v := by
      by_contra hlt
      have htrue : chars.any (fun c => decide (c < e)) = true :=
        List.any_eq_true.mpr ⟨v, hv, by simp only [decide_eq_true_eq]; omega⟩
      rw [htrue] at h
      exact absurd h (by simp)
    have hh : A.ranges.reverse.head? = some (s, e) := by
      rw [List.head?_reverse, hg]
    cases hrev : A.ranges.reverse with
    | nil => rw [hrev] at hh; exact absurd hh (by simp)
    | cons q qrest =>
      rw [hrev] at hh
      obtain rfl : q = (s, e) := by simpa using hh
      rw [contains_aux, if_pos (by omega : v ≥ e)]

/-! ### Chunk decomposition -/

lemma chunks_aux_flatten (L : Nat) : ∀ (bs cur : List Nat),
    (chunks_aux L cur bs).1.flatten ++ (chunks_aux L cur bs).2 = cur ++ bs := by
  intro bs
  induction bs with
  | nil =>
    intro cur
    simp [chunks_aux]
  | cons b bs ih =>
    intro cur
    rw [chunks_aux]
    split
    · have ih2 := ih []
      rcases hp : chunks_aux L [] bs with ⟨cs, r⟩
      rw [hp] at ih2
      simp only at ih2
      simp only [List.flatten_cons, List.nil_append] at ih2 ⊢
      rw [List.append_assoc, ih2]
      simp
    · have ih2 := ih (cur ++ [b])
      rw [ih2]
      simp

/-- The SIMD chunks plus the scalar remainder cover exactly the alphabet
bytes, in order. -/
lemma simd_chunks_flatten (A : Alphabet) (L : Nat) :
    (A.simd_chunks L).1.flatten ++ (A.simd_chunks L).2 = A.bytes := by
  rw [Alphabet.simd_chunks]
  exact chunks_aux_flatten L A.bytes []

/-! ### Facts about the concrete `ALPHABET` constant -/

lemma alpha_new_eq : Alphabet.new ALPHABET_BYTES = some ALPHABET := by decide

lemma alpha_nodup : ALPHABET_BYTES.Nodup := by decide

lemma alpha_bytes_lt : ∀ b ∈ ALPHABET.bytes, b < 256 := by decide

lemma alpha_bytes_lt123 : ∀ b ∈ ALPHABET.bytes, b < 123 := by decide

lemma alpha_bytes_len : ALPHABET.bytes.length = 38 := by decide

lemma alpha_mem_bytes_iff (v : Nat) : v ∈ ALPHABET.bytes ↔ v ∈ ALPHABET_BYTES := by
  have hb := (new_eq_some alpha_new_eq).1
  rw [hb]
  exact (sort_bytes_perm ALPHABET_BYTES).mem_iff

lemma alpha_contains_iff (v : Nat) : ALPHABET.contains v = true ↔ v ∈ ALPHABET.bytes := by
  rw [contains_iff_mem alpha_new_eq alpha_nodup v, alpha_mem_bytes_iff]

lemma alpha_contains_lt256 {v : Nat} (h : ALPHABET.contains v = true) : v < 256 :=
  alpha_bytes_lt v ((alpha_contains_iff v).mp h)

/-- Completeness of the prefilter for the concrete alphabet: a batch that
contains a member is never rejected. -/
lemma alpha_prefilter_complete {chars : List Nat} {v : Nat} (hv : v ∈ chars)
    (hc : ALPHABET.contains v = true) : ALPHABET.simd_prefilter chars = true := by
  have hvb : v ∈ ALPHABET.bytes := (alpha_contains_iff v).mp hc
  have hvlt : v < 123 := alpha_bytes_lt123 v hvb
  have hg : ALPHABET.ranges.getLast? = some (97, 123) := by decide
  rw [Alphabet.simd_prefilter, hg]
  exact List.any_eq_true.mpr ⟨v, hv, by simp only [decide_eq_true_eq]; omega⟩

/-! ### Packed byte-string arithmetic -/

lemma beVal_append_one (chars : List Nat) (c : Nat) :
    beVal (chars ++ [c]) = beVal chars * 256 + c := by
  rw [beVal, beVal, List.foldl_append]
  rfl

lemma beVal_fold_lt : ∀ (chars : List Nat) (a k : Nat), (∀ c ∈ chars, c < 256) → a < 2 ^ k →
    List.foldl (fun a b => a * 256 + b) a chars < 2 ^ (k + 8 * chars.length) := by
  intro chars
  induction chars with
  | nil =>
    intro a k _ ha
    simpa using ha
  | cons c cs ih =>
    intro a k hlt ha
    rw [List.foldl_cons]
    have hc : c < 256 := hlt c (List.mem_cons_self c cs)
    have hstep : a * 256 + c < 2 ^ (k + 8) := by
      have h2 : (2 : Nat) ^ (k + 8) = 2 ^ k * 256 := by rw [pow_add]; norm_num
      have h3 : a * 256 + 256 ≤ 2 ^ k * 256 := by
        have := Nat.succ_le_of_lt ha
        calc a * 256 + 256 = (a + 1) * 256 := by ring
        _ ≤ 2 ^ k * 256 := Nat.mul_le_mul_right 256 this
      omega
    have := ih (a * 256 + c) (k + 8) (fun x hx => hlt x (List.mem_cons_of_mem c hx)) hstep
    have harith : k + 8 + 8 * cs.length = k + 8 * (c :: cs).length := by
      rw [List.length_cons]; ring
    rw [harith] at this
    exact this

lemma beVal_lt (chars : List Nat) (h : ∀ c ∈ chars, c < 256) :
    beVal chars < 2 ^ (8 * chars.length) := by
  have := beVal_fold_lt chars 0 0 h (by norm_num)
  simpa [beVal] using this

/-- Appending one character via the u64 shift-and-or of the DFS push
(src/main.rs line 194) when the packed value cannot overflow. -/
lemma push_pack {chars : List Nat} {c : Nat} (hc : c < 256) (hlen : chars.length ≤ 6)
    (hlt : ∀ x ∈ chars, x < 256) :
    ((beVal chars <<< 8) % W64) ||| c = beVal (chars ++ [c]) := by
  have hb : beVal chars < 2 ^ 48 := by
    have h1 := beVal_lt chars hlt
    have h2 : (2 : Nat) ^ (8 * chars.length) ≤ 2 ^ 48 :=
      Nat.pow_le_pow_right (by norm_num) (by omega)
    omega
  rw [Nat.shiftLeft_eq, Nat.mod_eq_of_lt (by norm_num [W64]; omega), ← Nat.shiftLeft_eq,
    shiftLeft_or_of_lt (show c < 2 ^ 8 by omega), beVal_append_one]
  norm_num

/-- Appending the solved two-character tail via the u64 shift-and-ors of the
DFS match emission (src/main.rs line 208). -/
lemma match_pack {chars : List Nat} {c s : Nat} (hc : c < 256) (hs : s < 256)
    (hlen : chars.length ≤ 6) (hlt : ∀ x ∈ chars, x < 256) :
    (((beVal chars <<< 16) % W64) ||| ((c <<< 8) % W64)) ||| s = beVal (chars ++ [c, s]) := by
  have hb : beVal chars < 2 ^ 48 := by
    have h1 := beVal_lt chars hlt
    have h2 : (2 : Nat) ^ (8 * chars.length) ≤ 2 ^ 48 :=
      Nat.pow_le_pow_right (by norm_num) (by omega)
    omega
  have hc8 : (c <<< 8) % W64 = c * 2 ^ 8 := by
    rw [Nat.shiftLeft_eq]
    exact Nat.mod_eq_of_lt (by norm_num [W64]; omega)
  have h16 : (beVal chars <<< 16) % W64 = beVal chars * 2 ^ 16 := by
    rw [Nat.shiftLeft_eq]
    exact Nat.mod_eq_of_lt (by norm_num [W64]; omega)
  rw [hc8, h16]
  have e1 : beVal chars * 2 ^ 16 ||| c * 2 ^ 8 = beVal chars * 2 ^ 16 + c * 2 ^ 8 := by
    have h := shiftLeft_or_of_lt (a := beVal chars) (k := 16) (b := c * 2 ^ 8) (by omega)
    rw [Nat.shiftLeft_eq] at h
    exact h
  have e2 : (beVal chars * 2 ^ 16 + c * 2 ^ 8) ||| s
      = beVal chars * 2 ^ 16 + c * 2 ^ 8 + s := by
    have h := shiftLeft_or_of_lt (a := beVal chars * 2 ^ 8 + c) (k := 8) (b := s) (by omega)
    rw [Nat.shiftLeft_eq] at h
    have h3 : (beVal chars * 2 ^ 8 + c) * 2 ^ 8 = beVal chars * 2 ^ 16 + c * 2 ^ 8 := by ring
    rw [h3] at h
    exact h
  rw [e1, e2]
  rw [show chars ++ [c, s] = (chars ++ [c]) ++ [s] by simp, beVal_append_one, beVal_append_one]
  omega

/-! ### Hash-base bookkeeping of the DFS -/

/-- Advancing the hash base by one character: the stack stores
`hash_base = fnv(pre ++ chars) * FNV_PRIME mod 2^32`, and
`(hash_base + c) * FNV_PRIME mod 2^32` is the hash base for `chars ++ [c]`. -/
lemma hb_next (h0 : Nat) (chars : List Nat) (c : Nat) :
    (List.foldl fnv_step h0 chars * FNV_PRIME % W32 + c) * FNV_PRIME % W32
      = List.foldl fnv_step h0 (chars ++ [c]) * FNV_PRIME % W32 := by
  rw [List.foldl_append, List.foldl_cons, List.foldl_nil, fnv_step]
  conv_rhs => rw [Nat.mod_mul_mod]

/-- The solved trailing character closes the hash to exactly `ts`. -/
lemma step_solved {n ts : Nat} (hn : n < W32) (hts : ts < W32) :
    (n + (ts + W32 - n) % W32) % W32 = ts := by
  rw [show W32 = 4294967296 from rfl] at *
  omega

/-- Hashing `chars ++ [c, s]` where `s` is the solved trailing character for
the hash base of `chars ++ [c]` yields exactly the target shift `ts`. -/
lemma solved_hash (h0 ts : Nat) (hts : ts < W32) (chars : List Nat) (c : Nat) :
    List.foldl fnv_step h0
        (chars ++ [c, (ts + W32 - List.foldl fnv_step h0 (chars ++ [c]) * FNV_PRIME % W32) % W32])
      = ts := by
  rw [show chars ++ [c, (ts + W32 - List.foldl fnv_step h0 (chars ++ [c]) * FNV_PRIME % W32) % W32]
      = (chars ++ [c]) ++ [(ts + W32 - List.foldl fnv_step h0 (chars ++ [c]) * FNV_PRIME % W32) % W32]
    by simp]
  rw [List.foldl_append, List.foldl_cons, List.foldl_nil, fnv_step]
  exact step_solved (Nat.mod_lt _ W32_pos) hts

/-! ### The DFS invariant -/

/-- The stack entry `(hb, seq)` encodes the enumerated character list
`chars` relative to the prefix hash `h0`. -/
def entryChars (h0 : Nat) (e : Nat × Match) (chars : List Nat) : Prop :=
  (∀ c ∈ chars, c ∈ ALPHABET.bytes) ∧
  e.2.len = chars.length + 2 ∧
  e.2.bytes_be = beVal chars ∧
  e.1 = List.foldl fnv_step h0 chars * FNV_PRIME % W32

/-- A well-formed stack entry: it encodes some character list, and its
nominal length does not exceed the search bound. -/
def goodEntry (h0 max_len : Nat) (e : Nat × Match) : Prop :=
  ∃ chars, entryChars h0 e chars ∧ chars.length + 2 ≤ max_len

/-- What the DFS is allowed to append to the match list: a packed character
string over the alphabet of length between 2 and `max_len` whose rolling
hash continued from `h0` hits the target shift `ts`. -/
def goodMatch (h0 ts max_len : Nat) (m : Match) : Prop :=
  ∃ chars, (∀ c ∈ chars, c ∈ ALPHABET.bytes) ∧ m.len = chars.length ∧
    2 ≤ m.len ∧ m.len ≤ max_len ∧ m.bytes_be = beVal chars ∧
    List.foldl fnv_step h0 chars = ts

lemma zip_map_self (f : Nat → Nat) (l : List Nat) :
    (l.map f).zip l = l.map (fun x => (f x, x)) := by
  induction l with
  | nil => rfl
  | cons x xs ih => simp [ih]

/-- Membership in one chunk's emitted matches (for the concrete alphabet,
whose prefilter never rejects a batch containing a member). -/
lemma mem_chunk_matches {ts hb : Nat} {seq : Match} {chunk : List Nat} {m : Match} :
    m ∈ chunk_matches ALPHABET ts hb seq chunk ↔
      ∃ c ∈ chunk,
        ALPHABET.contains ((ts + W32 - (hb + c) * FNV_PRIME % W32) % W32) = true ∧
        m = ⟨(((seq.bytes_be <<< 16) % W64) ||| ((c <<< 8) % W64)) |||
              ((ts + W32 - (hb + c) * FNV_PRIME % W32) % W32), seq.len⟩ := by
  rw [chunk_matches]
  simp only [List.map_map, Function.comp_def]
  rw [zip_map_self]
  constructor
  · intro hm
    split at hm
    case isFalse => exact absurd hm (by simp)
    case isTrue hpf =>
      simp only [List.mem_map, List.mem_filter, List.mem_map] at hm
      obtain ⟨p, ⟨⟨c, hc, rfl⟩, hcont⟩, rfl⟩ := hm
      exact ⟨c, hc, hcont, rfl⟩
  · rintro ⟨c, hc, hcont, rfl⟩
    have hpf : ALPHABET.simd_prefilter
        (chunk.map (fun c => (ts + W32 - (hb + c) * FNV_PRIME % W32) % W32)) = true := by
      refine alpha_prefilter_complete ?_ hcont
      exact List.mem_map.mpr ⟨c, hc, rfl⟩
    rw [if_pos hpf]
    simp only [List.mem_map, List.mem_filter, List.mem_map]
    exact ⟨((ts + W32 - (hb + c) * FNV_PRIME % W32) % W32, c), ⟨⟨c, hc, rfl⟩, hcont⟩, rfl⟩

/-- Membership in the remainder's emitted matches. -/
lemma mem_rem_matches {ts hb : Nat} {seq : Match} {rem : List Nat} {m : Match} :
    m ∈ rem_matches ALPHABET ts hb seq rem ↔
      ∃ c ∈ rem,
        ALPHABET.contains ((ts + W32 - (hb + c) * FNV_PRIME % W32) % W32) = true ∧
        m = ⟨(((seq.bytes_be <<< 16) % W64) ||| ((c <<< 8) % W64)) |||
              ((ts + W32 - (hb + c) * FNV_PRIME % W32) % W32), seq.len⟩ := by
  rw [rem_matches]
  simp only [List.mem_filterMap]
  constructor
  · rintro ⟨c, hc, hm⟩
    split at hm
    case isTrue hcont =>
      obtain rfl := Option.some_injective _ hm
      exact ⟨c, hc, hcont, rfl⟩
    case isFalse => exact absurd hm (by simp)
  · rintro ⟨c, hc, hcont, rfl⟩
    refine ⟨c, hc, ?_⟩
    rw [if_pos hcont]

/-- Membership in all matches emitted by one DFS iteration. -/
lemma mem_dfs_step_matches {L ts max_len hb : Nat} {seq : Match} {m : Match} :
    m ∈ (dfs_step ALPHABET L ts max_len hb seq).2 ↔
      ∃ c ∈ ALPHABET.bytes,
        ALPHABET.contains ((ts + W32 - (hb + c) * FNV_PRIME % W32) % W32) = true ∧
        m = ⟨(((seq.bytes_be <<< 16) % W64) ||| ((c <<< 8) % W64)) |||
              ((ts + W32 - (hb + c) * FNV_PRIME % W32) % W32), seq.len⟩ := by
  rw [dfs_step]
  simp only [List.mem_append, List.mem_flatten, List.mem_map]
  rw [show (∃ l, (∃ a ∈ (ALPHABET.simd_chunks L).1, chunk_matches ALPHABET ts hb seq a = l) ∧
        m ∈ l) ↔
      ∃ chunk ∈ (ALPHABET.simd_chunks L).1, m ∈ chunk_matches ALPHABET ts hb seq chunk by
    constructor
    · rintro ⟨l, ⟨a, ha, rfl⟩, hm⟩
      exact ⟨a, ha, hm⟩
    · rintro ⟨a, ha, hm⟩
      exact ⟨_, ⟨a, ha, rfl⟩, hm⟩]
  have hcover := simd_chunks_flatten ALPHABET L
  constructor
  · rintro (⟨chunk, hchunk, hm⟩ | hm)
    · obtain ⟨c, hc, h⟩ := mem_chunk_matches.mp hm
      refine ⟨c, ?_, h⟩
      rw [← hcover, List.mem_append]
      exact Or.inl (List.mem_flatten.mpr ⟨chunk, hchunk, hc⟩)
    · obtain ⟨c, hc, h⟩ := mem_rem_matches.mp hm
      refine ⟨c, ?_, h⟩
      rw [← hcover, List.mem_append]
      exact Or.inr hc
  · rintro ⟨c, hc, h⟩
    rw [← hcover, List.mem_append] at hc
    rcases hc with hc | hc
    · obtain ⟨chunk, hchunk, hcc⟩ := List.mem_flatten.mp hc
      exact Or.inl ⟨chunk, hchunk, mem_chunk_matches.mpr ⟨c, hcc, h⟩⟩
    · exact Or.inr (mem_rem_matches.mpr ⟨c, hc, h⟩)

/-- Membership in one chunk's pushed stack entries. -/
lemma mem_chunk_pushes {hb : Nat} {seq : Match} {chunk : List Nat} {e : Nat × Match} :
    e ∈ chunk_pushes hb seq chunk ↔
      ∃ c ∈ chunk, e = ((hb + c) * FNV_PRIME % W32,
        ⟨((seq.bytes_be <<< 8) % W64) ||| c, seq.len + 1⟩) := by
  rw [chunk_pushes]
  simp only [List.mem_map]
  constructor
  · rintro ⟨c, hc, rfl⟩
    exact ⟨c, hc, rfl⟩
  · rintro ⟨c, hc, rfl⟩
    exact ⟨c, hc, rfl⟩

/-- Membership in the entries pushed by one DFS iteration. -/
lemma mem_dfs_step_pushes {L ts max_len hb : Nat} {seq : Match} {e : Nat × Match} :
    e ∈ (dfs_step ALPHABET L ts max_len hb seq).1 ↔
      seq.len ≠ max_len ∧ ∃ c ∈ ALPHABET.bytes,
        e = ((hb + c) * FNV_PRIME % W32,
             ⟨((seq.bytes_be <<< 8) % W64) ||| c, seq.len + 1⟩) := by
  simp only [dfs_step]
  split
  case isTrue hne =>
    constructor
    · intro h
      rcases List.mem_append.mp h with h | h
      · obtain ⟨l, hl, hm⟩ := List.mem_flatten.mp h
        obtain ⟨chunk, hchunk, rfl⟩ := List.mem_map.mp hl
        obtain ⟨c, hc, rfl⟩ := mem_chunk_pushes.mp hm
        refine ⟨hne, c, ?_, rfl⟩
        rw [← simd_chunks_flatten ALPHABET L, List.mem_append]
        exact Or.inl (List.mem_flatten.mpr ⟨chunk, hchunk, hc⟩)
      · obtain ⟨c, hc, rfl⟩ := mem_chunk_pushes.mp h
        refine ⟨hne, c, ?_, rfl⟩
        rw [← simd_chunks_flatten ALPHABET L, List.mem_append]
        exact Or.inr hc
    · rintro ⟨_, c, hc, rfl⟩
      rw [← simd_chunks_flatten ALPHABET L, List.mem_append] at hc
      rcases hc with hc | hc
      · obtain ⟨chunk, hchunk, hcc⟩ := List.mem_flatten.mp hc
        exact List.mem_append.mpr (Or.inl (List.mem_flatten.mpr
          ⟨chunk_pushes hb seq chunk, List.mem_map.mpr ⟨chunk, hchunk, rfl⟩,
           mem_chunk_pushes.mpr ⟨c, hcc, rfl⟩⟩))
      · exact List.mem_append.mpr (Or.inr (mem_chunk_pushes.mpr ⟨c, hc, rfl⟩))
  case isFalse hne =>
    constructor
    · intro h
      exact absurd h (List.not_mem_nil e)
    · rintro ⟨h, _⟩
      exact absurd h hne

/-! ### The DFS loop: accumulated matches are never dropped -/

lemma dfs_loop_acc_sub {alpha : Alphabet} {L ts max_len : Nat} :
    ∀ (fuel : Nat) (stack : List (Nat × Match)) (acc res : List Match),
    dfs_loop alpha L ts max_len fuel stack acc = some res →
    ∀ m ∈ acc, m ∈ res := by
  intro fuel
  induction fuel with
  | zero =>
    intro stack acc res h m hm
    cases stack with
    | nil =>
      rw [dfs_loop] at h
      obtain rfl := Option.some_injective _ h
      exact hm
    | cons e rest => exact absurd h (by rw [dfs_loop]; simp)
  | succ fuel ih =>
    intro stack acc res h m hm
    cases stack with
    | nil =>
      rw [dfs_loop] at h
      obtain rfl := Option.some_injective _ h
      exact hm
    | cons e rest =>
      obtain ⟨hb, seq⟩ := e
      rw [dfs_loop] at h
      exact ih _ _ _ h m (List.mem_append_left _ hm)

/-! ### DFS soundness: everything emitted is a hit -/

lemma dfs_loop_sound {L ts max_len : Nat} (h0 : Nat) (hts : ts < W32) (hml : max_len ≤ 8) :
    ∀ (fuel : Nat) (stack : List (Nat × Match)) (acc res : List Match),
    (∀ e ∈ stack, goodEntry h0 max_len e) →
    dfs_loop ALPHABET L ts max_len fuel stack acc = some res →
    ∀ m ∈ res, m ∈ acc ∨ goodMatch h0 ts max_len m := by
  intro fuel
  induction fuel with
  | zero =>
    intro stack acc res hinv h m hm
    cases stack with
    | nil =>
      rw [dfs_loop] at h
      obtain rfl := Option.some_injective _ h
      exact Or.inl hm
    | cons e rest => exact absurd h (by rw [dfs_loop]; simp)
  | succ fuel ih =>
    intro stack acc res hinv h m hm
    cases stack with
    | nil =>
      rw [dfs_loop] at h
      obtain rfl := Option.some_injective _ h
      exact Or.inl hm
    | cons e rest =>
      obtain ⟨hb, seq⟩ := e
      rw [dfs_loop] at h
      obtain ⟨chars, ⟨hcm, hclen, hcbe, hchb⟩, hbound⟩ := hinv _ (List.mem_cons_self _ _)
      simp only [] at hclen hcbe hchb
      have hchars6 : chars.length ≤ 6 := by omega
      have hclt : ∀ x ∈ chars, x < 256 := fun x hx => alpha_bytes_lt x (hcm x hx)
      have hinv2 : ∀ e2 ∈ (dfs_step ALPHABET L ts max_len hb seq).1.reverse ++ rest,
          goodEntry h0 max_len e2 := by
        intro e2 he2
        rcases List.mem_append.mp he2 with h2 | h2
        · rw [List.mem_reverse] at h2
          obtain ⟨hne, c, hc, rfl⟩ := mem_dfs_step_pushes.mp h2
          have hc256 : c < 256 := alpha_bytes_lt c hc
          refine ⟨chars ++ [c], ⟨?_, ?_, ?_, ?_⟩, ?_⟩
          · intro x hx
            rcases List.mem_append.mp hx with hx | hx
            · exact hcm x hx
            · rw [List.mem_singleton] at hx
              subst hx
              exact hc
          · simp only [List.length_append, List.length_cons, List.length_nil]
            omega
          · simp only []
            rw [hcbe]
            exact push_pack hc256 hchars6 hclt
          · simp only []
            rw [hchb]
            exact hb_next h0 chars c
          · simp only [List.length_append, List.length_cons, List.length_nil]
            omega
        · exact hinv _ (List.mem_cons_of_mem _ h2)
      rcases ih _ _ _ hinv2 h m hm with h2 | h2
      · rcases List.mem_append.mp h2 with h3 | h3
        · exact Or.inl h3
        · right
          obtain ⟨c, hc, hcont, rfl⟩ := mem_dfs_step_matches.mp h3
          have hc256 : c < 256 := alpha_bytes_lt c hc
          have hs256 : (ts + W32 - (hb + c) * FNV_PRIME % W32) % W32 < 256 :=
            alpha_contains_lt256 hcont
          have hbeq : (hb + c) * FNV_PRIME % W32
              = List.foldl fnv_step h0 (chars ++ [c]) * FNV_PRIME % W32 := by
            rw [hchb]
            exact hb_next h0 chars c
          refine ⟨chars ++ [c, (ts + W32 - (hb + c) * FNV_PRIME % W32) % W32],
            ?_, ?_, ?_, ?_, ?_, ?_⟩
          · intro x hx
            rcases List.mem_append.mp hx with hx | hx
            · exact hcm x hx
            · rcases List.mem_cons.mp hx with rfl | hx
              · exact hc
              · rw [List.mem_singleton] at hx
                subst hx
                exact (alpha_contains_iff _).mp hcont
          · simp only [List.length_append, List.length_cons, List.length_nil]
            omega
          · simp only []
            omega
          · simp only []
            omega
          · simp only []
            rw [hcbe]
            exact match_pack hc256 hs256 hchars6 hclt
          · rw [show (ts + W32 - (hb + c) * FNV_PRIME % W32) % W32
                = (ts + W32 - List.foldl fnv_step h0 (chars ++ [c]) * FNV_PRIME % W32) % W32
              by rw [hbeq]]
            exact solved_hash h0 ts hts chars c
      · exact Or.inr h2

/-! ### DFS completeness: every hit reachable from a stack entry is emitted -/

lemma dfs_loop_complete {L ts max_len : Nat} (h0 : Nat) (hml : max_len ≤ 8) :
    ∀ (fuel : Nat) (stack : List (Nat × Match)) (acc res : List Match),
    dfs_loop ALPHABET L ts max_len fuel stack acc = some res →
    ∀ e ∈ stack, ∀ (chars mid : List Nat) (c : Nat),
    entryChars h0 e chars →
    (∀ x ∈ mid, x ∈ ALPHABET.bytes) →
    c ∈ ALPHABET.bytes →
    chars.length + mid.length + 2 ≤ max_len →
    ALPHABET.contains
      ((ts + W32 - List.foldl fnv_step h0 (chars ++ mid ++ [c]) * FNV_PRIME % W32) % W32)
      = true →
    (⟨beVal (chars ++ mid ++ [c,
        (ts + W32 - List.foldl fnv_step h0 (chars ++ mid ++ [c]) * FNV_PRIME % W32) % W32]),
      chars.length + mid.length + 2⟩ : Match) ∈ res := by
  intro fuel
  induction fuel with
  | zero =>
    intro stack acc res h e he chars mid c hentry hmid hc hlen hcont
    cases stack with
    | nil => exact absurd he (List.not_mem_nil e)
    | cons etop rest => exact absurd h (by rw [dfs_loop]; simp)
  | succ fuel ih =>
    intro stack acc res h e he chars mid c hentry hmid hc hlen hcont
    cases stack with
    | nil => exact absurd he (List.not_mem_nil e)
    | cons etop rest =>
      obtain ⟨hb, seq⟩ := etop
      rw [dfs_loop] at h
      rcases List.mem_cons.mp he with rfl | hrest
      · obtain ⟨hcm, hclen, hcbe, hchb⟩ := hentry
        simp only [] at hclen hcbe hchb
        have hclt : ∀ x ∈ chars, x < 256 := fun x hx => alpha_bytes_lt x (hcm x hx)
        have hchars6 : chars.length ≤ 6 := by omega
        have hc256 : c < 256 := alpha_bytes_lt c hc
        cases mid with
        | nil =>
          simp only [List.append_nil, List.length_nil, Nat.add_zero] at hcont ⊢
          have hbeq : (hb + c) * FNV_PRIME % W32
              = List.foldl fnv_step h0 (chars ++ [c]) * FNV_PRIME % W32 := by
            rw [hchb]
            exact hb_next h0 chars c
          have hs256 : (ts + W32 -
              List.foldl fnv_step h0 (chars ++ [c]) * FNV_PRIME % W32) % W32 < 256 :=
            alpha_contains_lt256 hcont
          have hpack : (((seq.bytes_be <<< 16) % W64) ||| ((c <<< 8) % W64)) |||
              ((ts + W32 - (hb + c) * FNV_PRIME % W32) % W32)
              = beVal (chars ++ [c,
                  (ts + W32 - List.foldl fnv_step h0 (chars ++ [c]) * FNV_PRIME % W32) % W32]) := by
            rw [hcbe, hbeq]
            exact match_pack hc256 hs256 hchars6 hclt
          have hmem : (⟨beVal (chars ++ [c,
              (ts + W32 - List.foldl fnv_step h0 (chars ++ [c]) * FNV_PRIME % W32) % W32]),
              chars.length + 2⟩ : Match) ∈ (dfs_step ALPHABET L ts max_len hb seq).2 := by
            rw [mem_dfs_step_matches]
            refine ⟨c, hc, ?_, ?_⟩
            · rw [hbeq]
              exact hcont
            · rw [hpack, hclen]
          exact dfs_loop_acc_sub _ _ _ _ h _ (List.mem_append_right _ hmem)
        | cons c' mid' =>
          have hc'mem : c' ∈ ALPHABET.bytes := hmid c' (List.mem_cons_self _ _)
          have hc'256 : c' < 256 := alpha_bytes_lt c' hc'mem
          have hne : seq.len ≠ max_len := by
            simp only [List.length_cons] at hlen
            omega
          have hpush : ((hb + c') * FNV_PRIME % W32,
              (⟨((seq.bytes_be <<< 8) % W64) ||| c', seq.len + 1⟩ : Match))
              ∈ (dfs_step ALPHABET L ts max_len hb seq).1 :=
            mem_dfs_step_pushes.mpr ⟨hne, c', hc'mem, rfl⟩
          have hentry2 : entryChars h0 ((hb + c') * FNV_PRIME % W32,
              (⟨((seq.bytes_be <<< 8) % W64) ||| c', seq.len + 1⟩ : Match)) (chars ++ [c']) := by
            refine ⟨?_, ?_, ?_, ?_⟩
            · intro x hx
              rcases List.mem_append.mp hx with hx | hx
              · exact hcm x hx
              · rw [List.mem_singleton] at hx
                subst hx
                exact hc'mem
            · simp only [List.length_append, List.length_cons, List.length_nil]
              omega
            · simp only []
              rw [hcbe]
              exact push_pack hc'256 hchars6 hclt
            · simp only []
              rw [hchb]
              exact hb_next h0 chars c'
          have hlist : ∀ X : List Nat, (chars ++ [c']) ++ mid' ++ X = chars ++ (c' :: mid') ++ X := by
            intro X
            simp
          have hcont2 : ALPHABET.contains ((ts + W32 -
              List.foldl fnv_step h0 ((chars ++ [c']) ++ mid' ++ [c]) * FNV_PRIME % W32) % W32)
              = true := by
            rw [hlist]
            exact hcont
          have hlen2 : (chars ++ [c']).length + mid'.length + 2 ≤ max_len := by
            simp only [List.length_append, List.length_cons, List.length_nil] at hlen ⊢
            omega
          have hres := ih _ _ _ h _
            (List.mem_append_left _ (List.mem_reverse.mpr hpush))
            (chars ++ [c']) mid' c hentry2
            (fun x hx => hmid x (List.mem_cons_of_mem _ hx)) hc hlen2 hcont2
          convert hres using 2
          · simp
          · simp only [List.length_append, List.length_cons, List.length_nil]
            omega
      · exact ih _ _ _ h e (List.mem_append_right _ hrest) chars mid c hentry hmid hc hlen hcont

/-! ### DFS termination and divergence -/

/-- `geomB B d = 1 + B + ... + B^d`, the number of DFS nodes in a subtree
of depth `d` with branching factor `B`. -/
def geomB (B : Nat) : Nat → Nat
  | 0 => 1
  | d + 1 => 1 + B * geomB B d

/-- Total remaining work of a DFS stack. -/
def stackMeasure (max_len : Nat) (stack : List (Nat × Match)) : Nat :=
  (stack.map (fun e => geomB 38 (max_len - e.2.len))).sum

lemma sum_map_const {α : Type} (l : List α) (f : α → Nat) (k : Nat)
    (h : ∀ x ∈ l, f x = k) : (l.map f).sum = l.length * k := by
  induction l with
  | nil => simp
  | cons x xs ih =>
    simp only [List.map_cons, List.sum_cons, List.length_cons]
    rw [h x (List.mem_cons_self _ _), ih (fun y hy => h y (List.mem_cons_of_mem _ hy))]
    ring

lemma dfs_step_pushes_len_all {L ts max_len hb : Nat} {seq : Match} :
    ∀ e ∈ (dfs_step ALPHABET L ts max_len hb seq).1, e.2.len = seq.len + 1 := by
  intro e he
  obtain ⟨_, c, _, rfl⟩ := mem_dfs_step_pushes.mp he
  rfl

lemma dfs_step_pushes_length {L ts max_len hb : Nat} {seq : Match} (h : seq.len ≠ max_len) :
    (dfs_step ALPHABET L ts max_len hb seq).1.length = 38 := by
  simp only [dfs_step]
  rw [if_pos h, List.length_append, List.length_flatten, List.map_map]
  have h2 : List.map (List.length ∘ chunk_pushes hb seq) (ALPHABET.simd_chunks L).1
      = List.map List.length (ALPHABET.simd_chunks L).1 := by
    apply List.map_congr_left
    intro chunk _
    simp only [Function.comp_apply, chunk_pushes, List.length_map]
  rw [h2, chunk_pushes, List.length_map]
  have h3 := congrArg List.length (simd_chunks_flatten ALPHABET L)
  rw [List.length_append, List.length_flatten, alpha_bytes_len] at h3
  exact h3

/-- Each DFS iteration shrinks the total remaining work by exactly one. -/
lemma dfs_step_measure {L ts max_len hb : Nat} {seq : Match}
    (hlen : 2 ≤ seq.len ∧ seq.len ≤ max_len) :
    ((dfs_step ALPHABET L ts max_len hb seq).1.map
        (fun e => geomB 38 (max_len - e.2.len))).sum + 1
      = geomB 38 (max_len - seq.len) := by
  by_cases h : seq.len = max_len
  · have hnil : (dfs_step ALPHABET L ts max_len hb seq).1 = [] := by
      simp only [dfs_step]
      rw [if_neg (by simpa using h)]
    rw [hnil]
    simp only [List.map_nil, List.sum_nil, Nat.zero_add]
    rw [show max_len - seq.len = 0 by omega]
    rfl
  · have hlt : seq.len < max_len := lt_of_le_of_ne hlen.2 h
    rw [sum_map_const _ _ (geomB 38 (max_len - (seq.len + 1)))
      (fun e he => by rw [dfs_step_pushes_len_all e he])]
    rw [dfs_step_pushes_length h]
    obtain ⟨d, hd⟩ : ∃ d, max_len - seq.len = d + 1 := ⟨max_len - seq.len - 1, by omega⟩
    rw [hd, show max_len - (seq.len + 1) = d by omega, geomB]
    ring

lemma dfs_loop_terminates {L ts max_len : Nat} :
    ∀ (fuel : Nat) (stack : List (Nat × Match)) (acc : List Match),
    (∀ e ∈ stack, 2 ≤ e.2.len ∧ e.2.len ≤ max_len) →
    stackMeasure max_len stack < fuel →
    (dfs_loop ALPHABET L ts max_len fuel stack acc).isSome = true := by
  intro fuel
  induction fuel with
  | zero =>
    intro stack acc hinv hm
    exact absurd hm (Nat.not_lt_zero _)
  | succ fuel ih =>
    intro stack acc hinv hm
    cases stack with
    | nil =>
      rw [dfs_loop]
      rfl
    | cons e rest =>
      obtain ⟨hb, seq⟩ := e
      rw [dfs_loop]
      apply ih
      · intro e2 he2
        rcases List.mem_append.mp he2 with h2 | h2
        · rw [List.mem_reverse] at h2
          have hl := dfs_step_pushes_len_all e2 h2
          obtain ⟨hne, _, _, _⟩ := mem_dfs_step_pushes.mp h2
          have hs : 2 ≤ seq.len ∧ seq.len ≤ max_len := hinv _ (List.mem_cons_self _ _)
          constructor <;> omega
        · exact hinv _ (List.mem_cons_of_mem _ h2)
      · have hstep := @dfs_step_measure L ts max_len hb seq
          (hinv _ (List.mem_cons_self _ _))
        rw [stackMeasure] at hm ⊢
        rw [List.map_append, List.sum_append, List.map_reverse, List.sum_reverse]
        simp only [List.map_cons, List.sum_cons] at hm
        omega

/-- For `max_len < 2` the DFS never terminates: every popped entry has
nominal length at least 2, so the push guard `seq.len != max_len` always
fires and the stack never empties. -/
lemma dfs_loop_diverge {L ts max_len : Nat} (hml : max_len < 2) :
    ∀ (fuel : Nat) (stack : List (Nat × Match)) (acc : List Match),
    stack ≠ [] → (∀ e ∈ stack, 2 ≤ e.2.len) →
    dfs_loop ALPHABET L ts max_len fuel stack acc = none := by
  intro fuel
  induction fuel with
  | zero =>
    intro stack acc hne hinv
    cases stack with
    | nil => exact absurd rfl hne
    | cons e rest => rw [dfs_loop]
  | succ fuel ih =>
    intro stack acc hne hinv
    cases stack with
    | nil => exact absurd rfl hne
    | cons e rest =>
      obtain ⟨hb, seq⟩ := e
      rw [dfs_loop]
      have hs : 2 ≤ seq.len := hinv _ (List.mem_cons_self _ _)
      have hneq : seq.len ≠ max_len := by omega
      apply ih
      · intro hcontra
        obtain ⟨h1, -⟩ := List.append_eq_nil.mp hcontra
        have h2 := congrArg List.length h1
        rw [List.length_reverse, dfs_step_pushes_length hneq] at h2
        exact absurd h2 (by simp)
      · intro e2 he2
        rcases List.mem_append.mp he2 with h2 | h2
        · rw [List.mem_reverse] at h2
          have := dfs_step_pushes_len_all e2 h2
          omega
        · exact hinv _ (List.mem_cons_of_mem _ h2)

/-- Length bound on everything the DFS emits, with no packing assumptions:
an emitted match has the nominal length of the popped entry, and pushed
entries never exceed `max_len`. -/
lemma dfs_loop_len_bound {L ts max_len : Nat} :
    ∀ (fuel : Nat) (stack : List (Nat × Match)) (acc res : List Match),
    (∀ e ∈ stack, e.2.len ≤ max_len) →
    dfs_loop ALPHABET L ts max_len fuel stack acc = some res →
    ∀ m ∈ res, m ∈ acc ∨ m.len ≤ max_len := by
  intro fuel
  induction fuel with
  | zero =>
    intro stack acc res hinv h m hm
    cases stack with
    | nil =>
      rw [dfs_loop] at h
      obtain rfl := Option.some_injective _ h
      exact Or.inl hm
    | cons e rest => exact absurd h (by rw [dfs_loop]; simp)
  | succ fuel ih =>
    intro stack acc res hinv h m hm
    cases stack with
    | nil =>
      rw [dfs_loop] at h
      obtain rfl := Option.some_injective _ h
      exact Or.inl hm
    | cons e rest =>
      obtain ⟨hb, seq⟩ := e
      rw [dfs_loop] at h
      have hs : seq.len ≤ max_len := hinv _ (List.mem_cons_self _ _)
      have hinv2 : ∀ e2 ∈ (dfs_step ALPHABET L ts max_len hb seq).1.reverse ++ rest,
          e2.2.len ≤ max_len := by
        intro e2 he2
        rcases List.mem_append.mp he2 with h2 | h2
        · rw [List.mem_reverse] at h2
          have hl := dfs_step_pushes_len_all e2 h2
          obtain ⟨hne, _, _, _⟩ := mem_dfs_step_pushes.mp h2
          omega
        · exact hinv _ (List.mem_cons_of_mem _ h2)
      rcases ih _ _ _ hinv2 h m hm with h2 | h2
      · rcases List.mem_append.mp h2 with h3 | h3
        · exact Or.inl h3
        · right
          obtain ⟨c, hc, hcont, rfl⟩ := mem_dfs_step_matches.mp h3
          exact hs
      · exact Or.inr h2

/-! ### Decoding `Match::bytes` -/

lemma rotr64_low {x n : Nat} (hn : n ≤ 8) (hx : x < 2 ^ (8 * n)) :
    rotr64 x (8 * n) = x * 2 ^ (64 - 8 * n) := by
  rcases Nat.eq_zero_or_pos n with rfl | hpos
  · obtain rfl : x = 0 := by omega
    rfl
  rcases Nat.lt_or_ge n 8 with h | h
  · have hm : 8 * n % 64 = 8 * n := Nat.mod_eq_of_lt (by omega)
    rw [rotr64, hm]
    have h1 : x >>> (8 * n) = 0 := by
      rw [Nat.shiftRight_eq_div_pow]
      exact Nat.div_eq_of_lt hx
    have h2 : (64 - 8 * n) % 64 = 64 - 8 * n := Nat.mod_eq_of_lt (by omega)
    rw [h1, h2, Nat.zero_or, Nat.shiftLeft_eq]
    apply Nat.mod_eq_of_lt
    have h3 : x * 2 ^ (64 - 8 * n) < 2 ^ (8 * n) * 2 ^ (64 - 8 * n) :=
      (Nat.mul_lt_mul_right (Nat.two_pow_pos _)).mpr hx
    rw [← pow_add, show 8 * n + (64 - 8 * n) = 64 by omega] at h3
    rw [show W64 = 2 ^ 64 by norm_num [W64]]
    exact h3
  · have hn8 : n = 8 := by omega
    subst hn8
    rw [rotr64, show 8 * 8 = 64 from rfl, show (64 : Nat) % 64 = 0 from rfl,
      Nat.shiftRight_zero, Nat.shiftLeft_zero]
    rw [Nat.mod_eq_of_lt (by rw [show W64 = 2 ^ 64 by norm_num [W64]]; exact hx),
      Nat.or_self]
    norm_num

/-- Reading back the packed bytes of a match: the first `len` entries of
`Match::bytes` are exactly the packed character list. -/
lemma match_bytes_take (chars : List Nat) (hlt : ∀ c ∈ chars, c < 256)
    (hn : chars.length ≤ 8) :
    (Match.mk (beVal chars) chars.length).bytes.take chars.length = chars := by
  rw [Match.bytes]
  simp only []
  rw [rotr64_low hn (beVal_lt chars hlt)]
  rcases chars with _ | ⟨c0, _ | ⟨c1, _ | ⟨c2, _ | ⟨c3, _ | ⟨c4, _ | ⟨c5, _ | ⟨c6, _ |
    ⟨c7, rest⟩⟩⟩⟩⟩⟩⟩⟩
  · simp [toBeBytes64]
  · have h0 : c0 < 256 := hlt _ (by simp)
    simp only [toBeBytes64, beVal, List.foldl, List.length_cons, List.length_nil,
      Nat.shiftRight_eq_div_pow, List.take]
    norm_num
    omega
  · have h0 : c0 < 256 := hlt _ (by simp)
    have h1 : c1 < 256 := hlt _ (by simp)
    simp only [toBeBytes64, beVal, List.foldl, List.length_cons, List.length_nil,
      Nat.shiftRight_eq_div_pow, List.take]
    norm_num
    omega
  · have h0 : c0 < 256 := hlt _ (by simp)
    have h1 : c1 < 256 := hlt _ (by simp)
    have h2 : c2 < 256 := hlt _ (by simp)
    simp only [toBeBytes64, beVal, List.foldl, List.length_cons, List.length_nil,
      Nat.shiftRight_eq_div_pow, List.take]
    norm_num
    omega
  · have h0 : c0 < 256 := hlt _ (by simp)
    have h1 : c1 < 256 := hlt _ (by simp)
    have h2 : c2 < 256 := hlt _ (by simp)
    have h3 : c3 < 256 := hlt _ (by simp)
    simp only [toBeBytes64, beVal, List.foldl, List.length_cons, List.length_nil,
      Nat.shiftRight_eq_div_pow, List.take]
    norm_num
    omega
  · have h0 : c0 < 256 := hlt _ (by simp)
    have h1 : c1 < 256 := hlt _ (by simp)
    have h2 : c2 < 256 := hlt _ (by simp)
    have h3 : c3 < 256 := hlt _ (by simp)
    have h4 : c4 < 256 := hlt _ (by simp)
    simp only [toBeBytes64, beVal, List.foldl, List.length_cons, List.length_nil,
      Nat.shiftRight_eq_div_pow, List.take]
    norm_num
    omega
  · have h0 : c0 < 256 := hlt _ (by simp)
    have h1 : c1 < 256 := hlt _ (by simp)
    have h2 : c2 < 256 := hlt _ (by simp)
    have h3 : c3 < 256 := hlt _ (by simp)
    have h4 : c4 < 256 := hlt _ (by simp)
    have h5 : c5 < 256 := hlt _ (by simp)
    simp only [toBeBytes64, beVal, List.foldl, List.length_cons, List.length_nil,
      Nat.shiftRight_eq_div_pow, List.take]
    norm_num
    omega
  · have h0 : c0 < 256 := hlt _ (by simp)
    have h1 : c1 < 256 := hlt _ (by simp)
    have h2 : c2 < 256 := hlt _ (by simp)
    have h3 : c3 < 256 := hlt _ (by simp)
    have h4 : c4 < 256 := hlt _ (by simp)
    have h5 : c5 < 256 := hlt _ (by simp)
    have h6 : c6 < 256 := hlt _ (by simp)
    simp only [toBeBytes64, beVal, List.foldl, List.length_cons, List.length_nil,
      Nat.shiftRight_eq_div_pow, List.take]
    norm_num
    omega
  · cases rest with
    | nil =>
      have h0 : c0 < 256 := hlt _ (by simp)
      have h1 : c1 < 256 := hlt _ (by simp)
      have h2 : c2 < 256 := hlt _ (by simp)
      have h3 : c3 < 256 := hlt _ (by simp)
      have h4 : c4 < 256 := hlt _ (by simp)
      have h5 : c5 < 256 := hlt _ (by simp)
      have h6 : c6 < 256 := hlt _ (by simp)
      have h7 : c7 < 256 := hlt _ (by simp)
      simp only [toBeBytes64, beVal, List.foldl, List.length_cons, List.length_nil,
        Nat.shiftRight_eq_div_pow, List.take]
      norm_num
      omega
    | cons c8 rest2 =>
      exfalso
      simp only [List.length_cons] at hn
      omega

/-! ### The target shift characterizes hits -/

lemma ts_lt (suffix : List Nat) (t : Nat) :
    (PrecomputedSuffix.new suffix t).target_shift < W32 := by
  simp only [PrecomputedSuffix.new]
  exact Nat.mod_lt _ W32_pos

lemma nat_eq_iff_cast_eq {a b : Nat} (ha : a < W32) (hb : b < W32) :
    a = b ↔ ((a : Nat) : ZMod W32) = ((b : Nat) : ZMod W32) := by
  constructor
  · rintro rfl
    rfl
  · intro h
    have h2 := congrArg ZMod.val h
    rw [ZMod.val_cast_of_lt ha, ZMod.val_cast_of_lt hb] at h2
    exact h2

/-- The defining property of `target_shift`: continuing the rolling hash
from state `h` through the suffix hits the target iff `h` equals the
precomputed target shift. -/
lemma ts_iff (suffix : List Nat) (t h : Nat) (ht : t < W32) (hh : h < W32) :
    List.foldl fnv_step h suffix = t ↔ h = (PrecomputedSuffix.new suffix t).target_shift := by
  have hModd : (FNV_PRIME ^ suffix.length) % W32 % 2 = 1 := by
    rw [Nat.mod_mod_of_dvd _ (by norm_num [W32] : (2 : Nat) ∣ W32), Nat.pow_mod]
    norm_num [FNV_PRIME]
  have hMinv := minv32_mul_eq_one _ hModd
  have hcast : (((FNV_PRIME ^ suffix.length % W32) *
      minv32 (FNV_PRIME ^ suffix.length % W32) : Nat) : ZMod W32) = 1 := by
    have h2 := congrArg (fun k : Nat => ((k : Nat) : ZMod W32)) hMinv
    simpa [ZMod.natCast_mod] using h2
  have hMc : (((FNV_PRIME ^ suffix.length % W32 : Nat)) : ZMod W32)
      = (((FNV_PRIME : Nat) : ZMod W32)) ^ suffix.length := by
    rw [ZMod.natCast_mod]
    push_cast
    ring
  have hts : ((((PrecomputedSuffix.new suffix t).target_shift : Nat)) : ZMod W32)
      = (((t : Nat) : ZMod W32) - ((fnv_hash suffix : Nat) : ZMod W32)) *
        ((minv32 (FNV_PRIME ^ suffix.length % W32) : Nat) : ZMod W32) := by
    simp only [PrecomputedSuffix.new]
    rw [ZMod.natCast_mod, Nat.cast_mul, cast_wsub _ _ (fnv_hash_lt suffix)]
  have key : ∀ H : ZMod W32,
      H * (((FNV_PRIME : Nat) : ZMod W32)) ^ suffix.length
          + ((fnv_hash suffix : Nat) : ZMod W32) = ((t : Nat) : ZMod W32)
        ↔ H = (((t : Nat) : ZMod W32) - ((fnv_hash suffix : Nat) : ZMod W32)) *
            ((minv32 (FNV_PRIME ^ suffix.length % W32) : Nat) : ZMod W32) := by
    intro H
    constructor
    · intro heq
      calc H = H * ((((FNV_PRIME ^ suffix.length % W32 : Nat)) : ZMod W32) *
            ((minv32 (FNV_PRIME ^ suffix.length % W32) : Nat) : ZMod W32)) := by
              rw [← Nat.cast_mul, hcast, mul_one]
      _ = (H * (((FNV_PRIME : Nat) : ZMod W32)) ^ suffix.length) *
            ((minv32 (FNV_PRIME ^ suffix.length % W32) : Nat) : ZMod W32) := by
              rw [hMc]; ring
      _ = (((t : Nat) : ZMod W32) - ((fnv_hash suffix : Nat) : ZMod W32)) *
            ((minv32 (FNV_PRIME ^ suffix.length % W32) : Nat) : ZMod W32) := by
              rw [show H * (((FNV_PRIME : Nat) : ZMod W32)) ^ suffix.length
                  = ((t : Nat) : ZMod W32) - ((fnv_hash suffix : Nat) : ZMod W32) by
                linear_combination heq]
    · intro heq
      rw [heq]
      calc (((t : Nat) : ZMod W32) - ((fnv_hash suffix : Nat) : ZMod W32)) *
            ((minv32 (FNV_PRIME ^ suffix.length % W32) : Nat) : ZMod W32) *
            (((FNV_PRIME : Nat) : ZMod W32)) ^ suffix.length
            + ((fnv_hash suffix : Nat) : ZMod W32)
          = (((t : Nat) : ZMod W32) - ((fnv_hash suffix : Nat) : ZMod W32)) *
            ((((FNV_PRIME ^ suffix.length % W32 : Nat)) : ZMod W32) *
              ((minv32 (FNV_PRIME ^ suffix.length % W32) : Nat) : ZMod W32))
            + ((fnv_hash suffix : Nat) : ZMod W32) := by rw [hMc]; ring
      _ = ((t : Nat) : ZMod W32) := by rw [← Nat.cast_mul, hcast]; ring
  rw [nat_eq_iff_cast_eq (fnv_fold_lt hh suffix) ht,
    nat_eq_iff_cast_eq hh (ts_lt suffix t), cast_foldl_fnv, hts]
  exact key _

/-- Continuing the hash of `pre ++ chars` through the suffix: a hit at the
target shift round-trips to the target. -/
lemma roundtrip_of_hits (pre suffix : List Nat) (target : Nat) (ht : target < W32)
    (chars : List Nat)
    (hhit : List.foldl fnv_step (fnv_hash pre) chars
      = (PrecomputedSuffix.new suffix target).target_shift) :
    fnv_hash (pre ++ chars ++ suffix) = target := by
  have h1 : fnv_hash (pre ++ chars ++ suffix)
      = List.foldl fnv_step (List.foldl fnv_step (fnv_hash pre) chars) suffix := by
    rw [fnv_hash, fnv_hash, List.foldl_append, List.foldl_append]
  rw [h1, hhit]
  exact (ts_iff suffix target _ ht (ts_lt suffix target)).mpr rfl

/-! ### Unfolding `find_collisions_simd` -/

lemma find_unfold (L : Nat) (pre suffix : List Nat) (max_len target fuel : Nat) :
    find_collisions_simd L pre suffix max_len target fuel =
      dfs_loop ALPHABET L (PrecomputedSuffix.new suffix target).target_shift max_len fuel
        [(fnv_hash pre * FNV_PRIME % W32, ⟨0, 2⟩)]
        ((if fnv_hash pre = target then [(⟨0, 0⟩ : Match)] else []) ++
         (if ALPHABET.contains (((PrecomputedSuffix.new suffix target).target_shift + W32
              - fnv_hash pre * FNV_PRIME % W32) % W32) then
            [(⟨((PrecomputedSuffix.new suffix target).target_shift + W32
              - fnv_hash pre * FNV_PRIME % W32) % W32, 1⟩ : Match)]
          else [])) := rfl

/-- The call never returns for `max_len < 2`: the stack is seeded with a
length-2 entry and `dfs_loop` then diverges. -/
lemma find_none_of_small {L : Nat} {pre suffix : List Nat} {max_len target fuel : Nat}
    (hml : max_len < 2) :
    find_collisions_simd L pre suffix max_len target fuel = none := by
  rw [find_unfold]
  apply dfs_loop_diverge hml
  · simp
  · intro e he
    rw [List.mem_singleton] at he
    subst he
    exact le_refl 2

lemma initial_entry_chars (h0 : Nat) :
    entryChars h0 (h0 * FNV_PRIME % W32, (⟨0, 2⟩ : Match)) [] := by
  refine ⟨?_, rfl, rfl, rfl⟩
  intro c hc
  exact absurd hc (List.not_mem_nil c)

/-! ### Claim C1 -/

/-- C1 (corrected): the round-trip property of `find_collisions_simd` holds
for every returned match of length at least 1: for every prefix, suffix,
32-bit target and `max_len ≤ 8`, if the search returns a list, every match
`m` in it with `1 ≤ m.len` satisfies
`fnv_hash (prefix ++ m.bytes()[0..m.len] ++ suffix) = target`.  (The
original claim, covering length-0 matches as well, is refuted by
`C1_counterexample`: the empty-string check compares `prefix_hash` against
`target_hash` instead of against the suffix-adjusted `target_shift`.) -/
theorem C1_roundtrip_pos_len (L : Nat) (pre suffix : List Nat)
    (max_len target fuel : Nat) (res : List Match)
    (hml : max_len ≤ 8) (ht : target < W32)
    (h : find_collisions_simd L pre suffix max_len target fuel = some res) :
    ∀ m ∈ res, 1 ≤ m.len → fnv_hash (pre ++ m.bytes.take m.len ++ suffix) = target := by
  intro m hm hlen
  rcases Nat.lt_or_ge max_len 2 with hml2 | hml2
  · rw [find_none_of_small hml2] at h
    exact absurd h (by simp)
  rw [find_unfold] at h
  have hts := ts_lt suffix target
  have hinv : ∀ e ∈ [(fnv_hash pre * FNV_PRIME % W32, (⟨0, 2⟩ : Match))],
      goodEntry (fnv_hash pre) max_len e := by
    intro e he
    rw [List.mem_singleton] at he
    subst he
    exact ⟨[], initial_entry_chars _, by simpa using hml2⟩
  rcases dfs_loop_sound (fnv_hash pre) hts hml _ _ _ _ hinv h m hm with h2 | h2
  · rcases List.mem_append.mp h2 with h3 | h3
    · by_cases hc : fnv_hash pre = target
      · rw [if_pos hc, List.mem_singleton] at h3
        subst h3
        exact absurd hlen (by simp)
      · rw [if_neg hc] at h3
        exact absurd h3 (List.not_mem_nil _)
    · by_cases hc : ALPHABET.contains (((PrecomputedSuffix.new suffix target).target_shift
          + W32 - fnv_hash pre * FNV_PRIME % W32) % W32) = true
      · rw [if_pos hc, List.mem_singleton] at h3
        subst h3
        have holc256 : ((PrecomputedSuffix.new suffix target).target_shift
            + W32 - fnv_hash pre * FNV_PRIME % W32) % W32 < 256 := alpha_contains_lt256 hc
        have hbytes : (Match.mk (((PrecomputedSuffix.new suffix target).target_shift
            + W32 - fnv_hash pre * FNV_PRIME % W32) % W32) 1).bytes.take 1
            = [((PrecomputedSuffix.new suffix target).target_shift
                + W32 - fnv_hash pre * FNV_PRIME % W32) % W32] := by
          have hb := match_bytes_take [((PrecomputedSuffix.new suffix target).target_shift
              + W32 - fnv_hash pre * FNV_PRIME % W32) % W32]
            (by
              intro c hcm
              rw [List.mem_singleton] at hcm
              omega)
            (by norm_num)
          simpa [beVal] using hb
        rw [show (Match.mk (((PrecomputedSuffix.new suffix target).target_shift
            + W32 - fnv_hash pre * FNV_PRIME % W32) % W32) 1).len = 1 from rfl, hbytes]
        apply roundtrip_of_hits pre suffix target ht
        rw [List.foldl_cons, List.foldl_nil, fnv_step]
        exact step_solved (Nat.mod_lt _ W32_pos) hts
      · rw [if_neg hc] at h3
        exact absurd h3 (List.not_mem_nil _)
  · obtain ⟨chars, hmemc, hlenm, h2m, hlem, hbe, hhit⟩ := h2
    have hclt : ∀ x ∈ chars, x < 256 := fun x hx => alpha_bytes_lt x (hmemc x hx)
    have hbytes : m.bytes.take m.len = chars := by
      have hb := match_bytes_take chars hclt (by omega)
      cases m with
      | mk bb ll =>
        simp only [] at hbe hlenm
        subst hbe
        subst hlenm
        exact hb
    rw [hbytes]
    exact roundtrip_of_hits pre suffix target ht chars hhit

/-- C1 counterexample: for prefix `[]`, suffix `[1]`, target `0` and
`max_len = 2`, the search returns a zero-length match (because
`fnv_hash [] = 0 = target`), yet the empty string does not round-trip:
`fnv_hash ([] ++ [] ++ [1]) = 1 ≠ 0`.  This refutes the original C1, which
claims the round-trip for every returned match. -/
theorem C1_counterexample :
    (⟨0, 0⟩ : Match) ∈ (find_collisions_simd 4 [] [1] 2 0 1).getD [] ∧
    fnv_hash ([] ++ (⟨0, 0⟩ : Match).bytes.take (⟨0, 0⟩ : Match).len ++ [1]) ≠ 0 := by
  decide

/-- C1 witness: the amended round-trip theorem applied at a concrete input:
prefix `[]`, suffix `[]`, target `3610`, `max_len = 2`, where the search
returns the single packed match `"__"` (bytes `[95, 95]`). -/
theorem C1_roundtrip_pos_len_witness :
    fnv_hash ([] ++ (Match.mk 24415 2).bytes.take (Match.mk 24415 2).len ++ []) = 3610 :=
  C1_roundtrip_pos_len 4 [] [] 2 3610 1 [Match.mk 24415 2] (by norm_num)
    (by norm_num [W32]) (by decide) (Match.mk 24415 2) (by decide) (by decide)

/-! ### Claim C2 -/

/-- C2 (corrected): completeness of `find_collisions_simd` for candidate
strings of length 1 to `max_len`: for every prefix, suffix, 32-bit target,
`max_len ≤ 8` and byte string `t` over the alphabet with
`1 ≤ |t| ≤ max_len` such that `fnv_hash (prefix ++ t ++ suffix) = target`,
any returned list contains a match whose length is `|t|` and whose decoded
bytes are exactly `t`.  (The original claim also covers the empty string;
that case is refuted by `C2_counterexample`, again due to the empty-string
check comparing against the wrong hash.) -/
theorem C2_complete_pos_len (L : Nat) (pre suffix t : List Nat)
    (max_len target fuel : Nat) (res : List Match)
    (hml : max_len ≤ 8) (ht : target < W32)
    (hmemt : ∀ c ∈ t, c ∈ ALPHABET.bytes)
    (hlen1 : 1 ≤ t.length) (hlen2 : t.length ≤ max_len)
    (hhash : fnv_hash (pre ++ t ++ suffix) = target)
    (h : find_collisions_simd L pre suffix max_len target fuel = some res) :
    ∃ m ∈ res, m.len = t.length ∧ m.bytes.take m.len = t := by
  rcases Nat.lt_or_ge max_len 2 with hml2 | hml2
  · rw [find_none_of_small hml2] at h
    exact absurd h (by simp)
  rw [find_unfold] at h
  have hts := ts_lt suffix target
  have hclt : ∀ x ∈ t, x < 256 := fun x hx => alpha_bytes_lt x (hmemt x hx)
  have hhit : List.foldl fnv_step (fnv_hash pre) t
      = (PrecomputedSuffix.new suffix target).target_shift := by
    have h1 : fnv_hash (pre ++ t ++ suffix)
        = List.foldl fnv_step (List.foldl fnv_step (fnv_hash pre) t) suffix := by
      rw [fnv_hash, fnv_hash, List.foldl_append, List.foldl_append]
    rw [h1] at hhash
    exact (ts_iff suffix target _ ht (fnv_fold_lt (fnv_hash_lt pre) t)).mp hhash
  refine ⟨⟨beVal t, t.length⟩, ?_, rfl, match_bytes_take t hclt (by omega)⟩
  obtain ⟨t1, s, rfl⟩ : ∃ t1 s, t = t1 ++ [s] := by
    rcases List.eq_nil_or_concat t with rfl | ⟨t1, s, h1⟩
    · exact absurd hlen1 (by simp)
    · exact ⟨t1, s, by rw [h1, List.concat_eq_append]⟩
  have hs256 : s < 256 := hclt s (by simp)
  rcases List.eq_nil_or_concat t1 with rfl | ⟨t2, c, h1⟩
  · -- t = [s]: the direct one-character solve catches it
    have hseq : s = ((PrecomputedSuffix.new suffix target).target_shift + W32
        - fnv_hash pre * FNV_PRIME % W32) % W32 := by
      rw [List.nil_append, List.foldl_cons, List.foldl_nil, fnv_step] at hhit
      have hlt : fnv_hash pre * FNV_PRIME % W32 < W32 := Nat.mod_lt _ W32_pos
      revert hhit hlt hts hs256
      rw [show W32 = 4294967296 from rfl]
      omega
    apply dfs_loop_acc_sub _ _ _ _ h
    apply List.mem_append_right
    rw [if_pos (by rw [← hseq]; exact (alpha_contains_iff s).mpr (hmemt s (by simp)))]
    rw [List.mem_singleton]
    rw [show beVal ([] ++ [s]) = s by simp [beVal], ← hseq]
    rfl
  · -- t = t2 ++ [c, s]: the DFS catches it
    rw [List.concat_eq_append] at h1
    subst h1
    have hrw : (t2 ++ [c]) ++ [s] = t2 ++ [c, s] := by simp
    have hG : List.foldl fnv_step (fnv_hash pre) (t2 ++ [c]) * FNV_PRIME % W32 < W32 :=
      Nat.mod_lt _ W32_pos
    have hseq : s = ((PrecomputedSuffix.new suffix target).target_shift + W32
        - List.foldl fnv_step (fnv_hash pre) (t2 ++ [c]) * FNV_PRIME % W32) % W32 := by
      rw [List.foldl_append, List.foldl_cons, List.foldl_nil, fnv_step] at hhit
      revert hhit hG hts hs256
      rw [show W32 = 4294967296 from rfl]
      omega
    have hcont : ALPHABET.contains (((PrecomputedSuffix.new suffix target).target_shift + W32
        - List.foldl fnv_step (fnv_hash pre) ([] ++ t2 ++ [c]) * FNV_PRIME % W32) % W32)
        = true := by
      rw [List.nil_append, ← hseq]
      exact (alpha_contains_iff s).mpr (hmemt s (by simp [hrw]))
    have hres := dfs_loop_complete (fnv_hash pre) hml _ _ _ _ h _
      (List.mem_singleton.mpr rfl) [] t2 c (initial_entry_chars _)
      (fun x hx => hmemt x (by simp [hrw]; tauto)) (hmemt c (by simp [hrw]))
      (by
        have hlt : ((t2 ++ [c]) ++ [s]).length = t2.length + 2 := by simp
        rw [hlt] at hlen2
        simpa using hlen2)
      hcont
    have heq : (⟨beVal ([] ++ t2 ++ [c,
        ((PrecomputedSuffix.new suffix target).target_shift + W32
          - List.foldl fnv_step (fnv_hash pre) ([] ++ t2 ++ [c]) * FNV_PRIME % W32) % W32]),
        ([] : List Nat).length + t2.length + 2⟩ : Match)
        = (⟨beVal ((t2 ++ [c]) ++ [s]), ((t2 ++ [c]) ++ [s]).length⟩ : Match) := by
      rw [List.nil_append, ← hseq]
      congr 1
      · rw [hrw]
      · simp
    exact heq ▸ hres

/-- C2 counterexample: for prefix `[]`, suffix `[2]` and target `2`, the
empty string is a collision (`fnv_hash ([] ++ [] ++ [2]) = 2`), yet the
search returns the empty match list: no zero-length match is reported,
because the empty-string check compares `fnv_hash prefix` with the target
instead of using the suffix precomputation.  This refutes the original C2
for length-0 candidate strings. -/
theorem C2_counterexample :
    fnv_hash ([] ++ [] ++ [2]) = 2 ∧
    find_collisions_simd 4 [] [2] 2 2 1 = some [] := by
  decide

/-- C2 witness: the amended completeness theorem applied at a concrete
input: the string `"_"` (bytes `[95]`) hashes to 95 between empty prefix
and suffix, and the search indeed reports it. -/
theorem C2_complete_pos_len_witness :
    ∃ m ∈ [(⟨95, 1⟩ : Match)], m.len = [95].length ∧ m.bytes.take m.len = [95] :=
  C2_complete_pos_len 4 [] [] [95] 2 95 1 [⟨95, 1⟩] (by norm_num) (by norm_num [W32])
    (by decide) (by norm_num) (by norm_num) (by decide) (by decide)

/-! ### Claim C3 -/

/-- C3 (code bug): the zero-length case is wrong in the code.  At prefix
`[]`, suffix `[1]`, target `1` and `max_len = 2`, the empty string is a
true collision (`fnv_hash ([] ++ [1]) = 1`), but the returned list contains
no zero-length match: the code tests `prefix_hash == target_hash` (here
`0 ≠ 1`) instead of testing the empty string's full hash against the
target via the suffix precomputation.  (Conversely `C1_counterexample`
shows a spurious zero-length match when `fnv_hash prefix = target`.  In
addition, with `max_len = 0` the call never returns at all — see
`find_none_of_small` — instead of returning exactly one zero-length
match.) -/
theorem C3_zero_length_check_bug :
    fnv_hash ([] ++ [1]) = 1 ∧
    (find_collisions_simd 4 [] [1] 2 1 1).isSome = true ∧
    ((find_collisions_simd 4 [] [1] 2 1 1).getD []).all (fun m => m.len != 0) = true := by
  decide

/-! ### Claim C4 -/

/-- C4 (confirmed): for every odd 32-bit value `a`, both the CPU `minv32`
(3 Newton-Raphson iterations, src/main.rs) and the OpenCL host `minv32`
(4 iterations, opencl/src/main.rs) return a value `x` with
`a * x ≡ 1 (mod 2^32)`; oddness is the precondition hypothesis. -/
theorem C4_minv32_correct (a : Nat) (_ha : a < W32) (ho : a % 2 = 1) :
    a * minv32 a % W32 = 1 ∧ a * minv32_ocl a % W32 = 1 :=
  ⟨minv32_mul_eq_one a ho, minv32_ocl_mul_eq_one a ho⟩

/-- C4 witness: the endpoint value `2^32 - 1` named by the claim. -/
theorem C4_minv32_correct_witness :
    4294967295 * minv32 4294967295 % W32 = 1 ∧
    4294967295 * minv32_ocl 4294967295 % W32 = 1 :=
  C4_minv32_correct 4294967295 (by norm_num [W32]) (by norm_num)

/-! ### Claim C5 -/

/-- C5 (code bug): `Alphabet::new` misses non-adjacent duplicates.  The
input `[0, 1, 0]` contains the byte 0 twice, yet construction succeeds,
because the duplicate scan runs over the *unsorted* input (where the two
zeros are not adjacent) even though the input was just sorted.  The claim
(and the panic message's intent) requires construction to fail on any
duplicated byte value. -/
theorem C5_duplicate_scan_misses_nonadjacent :
    (Alphabet.new [0, 1, 0]).isSome = true ∧ ¬ List.Nodup [0, 1, 0] := by
  decide

/-! ### Claim C6 -/

/-- C6 (confirmed): for every alphabet built by `Alphabet::new` from
distinct bytes, and every value `v < 256`, `contains v` agrees with a
naive linear scan of the input symbol list. -/
theorem C6_contains_membership (bs : List Nat) (A : Alphabet)
    (h : Alphabet.new bs = some A) (hnd : bs.Nodup) (v : Nat) (_hv : v < 256) :
    A.contains v = bs.contains v := by
  have h1 := contains_iff_mem h hnd v
  have h2 : bs.contains v = true ↔ v ∈ bs := List.elem_iff
  by_cases hm : v ∈ bs
  · rw [h1.mpr hm, h2.mpr hm]
  · have e1 : A.contains v = false := by
      cases hAc : A.contains v
      · rfl
      · exact absurd (h1.mp hAc) hm
    have e2 : bs.contains v = false := by
      cases hBc : bs.contains v
      · rfl
      · exact absurd (h2.mp hBc) hm
    rw [e1, e2]

/-- C6 witness: the two-symbol alphabet `{3, 5}` at `v = 3`. -/
theorem C6_contains_membership_witness :
    (Alphabet.mk [3, 5] [(3, 4), (5, 6)]).contains 3 = [5, 3].contains 3 :=
  C6_contains_membership [5, 3] (Alphabet.mk [3, 5] [(3, 4), (5, 6)]) (by decide)
    (by decide) 3 (by decide)

/-! ### Claim C7 -/

/-- C7 (confirmed): the SIMD prefilter has no false negatives: for every
alphabet and every batch of u32 lane values, if `simd_prefilter` returns
false then `contains` is false for every value in the batch. -/
theorem C7_prefilter_no_false_negatives (A : Alphabet) (chars : List Nat) (v : Nat)
    (h : A.simd_prefilter chars = false) (hv : v ∈ chars) :
    A.contains v = false :=
  simd_prefilter_sound h hv

/-- C7 witness: the engine's alphabet rejects the batch `[200, 300]`, and
indeed 200 is not a member. -/
theorem C7_prefilter_no_false_negatives_witness : ALPHABET.contains 200 = false :=
  C7_prefilter_no_false_negatives ALPHABET [200, 300] 200 (by decide) (by decide)

/-! ### Claim C8 -/

/-- C8 (corrected): the maximum total length of a returned match is
`max_len`, not `max_len + 1`: the DFS reports a match at the nominal
length of the popped entry (second-to-last enumerated character and solved
trailing character included), entries are seeded at length 2 and pushed
only while strictly below `max_len`, and matches of lengths 0 and 1 are
handled separately.  So `max_extra_length` bounds the *total* matched
length; the enumerated portion is at most `max_extra_length - 1`. -/
theorem C8_max_total_length (L : Nat) (pre suffix : List Nat)
    (max_len target fuel : Nat) (res : List Match)
    (h : find_collisions_simd L pre suffix max_len target fuel = some res) :
    ∀ m ∈ res, m.len ≤ max_len := by
  intro m hm
  rcases Nat.lt_or_ge max_len 2 with hml2 | hml2
  · rw [find_none_of_small hml2] at h
    exact absurd h (by simp)
  rw [find_unfold] at h
  have hinv : ∀ e ∈ [(fnv_hash pre * FNV_PRIME % W32, (⟨0, 2⟩ : Match))],
      e.2.len ≤ max_len := by
    intro e he
    rw [List.mem_singleton] at he
    subst he
    exact hml2
  rcases dfs_loop_len_bound _ _ _ _ hinv h m hm with h2 | h2
  · rcases List.mem_append.mp h2 with h3 | h3
    · by_cases hc : fnv_hash pre = target
      · rw [if_pos hc, List.mem_singleton] at h3
        subst h3
        exact Nat.zero_le _
      · rw [if_neg hc] at h3
        exact absurd h3 (List.not_mem_nil _)
    · by_cases hc : ALPHABET.contains (((PrecomputedSuffix.new suffix target).target_shift
          + W32 - fnv_hash pre * FNV_PRIME % W32) % W32) = true
      · rw [if_pos hc, List.mem_singleton] at h3
        subst h3
        show 1 ≤ max_len
        omega
      · rw [if_neg hc] at h3
        exact absurd h3 (List.not_mem_nil _)
  · exact h2

/-- C8 counterexample: at prefix `[]`, suffix `[]`, target `3610` and
`max_len = 2`, the search returns exactly one match, of length 2
(`= max_len`), and no match of length `max_len + 1 = 3` — the bound
applies to the total length, solved trailing character included. -/
theorem C8_counterexample :
    find_collisions_simd 4 [] [] 2 3610 1 = some [⟨24415, 2⟩] ∧
    (⟨24415, 2⟩ : Match).len = 2 ∧
    ((find_collisions_simd 4 [] [] 2 3610 1).getD []).all (fun m => m.len != 3) = true := by
  decide

/-- C8 witness: the length bound applied to the concrete length-2 match
returned at `max_len = 2`. -/
theorem C8_max_total_length_witness : (⟨24415, 2⟩ : Match).len ≤ 2 :=
  C8_max_total_length 4 [] [] 2 3610 1 [⟨24415, 2⟩] (by decide) (⟨24415, 2⟩ : Match)
    (by decide)

/-! ### Claim C9 -/

/-- C9 (code bug): there is no guard on `max_len` anywhere in
`find_collisions_simd`: called with `max_len = 9`, which exceeds the
8-byte packed-match capacity of the u64 `bytes_be` word, the search does
not abort — it runs to completion (termination shown via the explicit
node-count fuel `geomB 38 7 + 1`) and returns a result list, so a
9-byte match would be silently mis-packed rather than rejected. -/
theorem C9_no_max_len_guard :
    (find_collisions_simd 4 [] [] 9 1 (geomB 38 7 + 1)).isSome = true := by
  rw [find_unfold]
  apply dfs_loop_terminates
  · intro e he
    rw [List.mem_singleton] at he
    subst he
    exact ⟨le_refl 2, by norm_num⟩
  · rw [stackMeasure]
    simp only [List.map_cons, List.map_nil, List.sum_cons, List.sum_nil]
    show geomB 38 (9 - 2) + 0 < geomB 38 7 + 1
    norm_num

/-! ### Claim C10 -/

/-- C10 (confirmed): membership is false at and above 256: for every
alphabet built by `Alphabet::new` from bytes (all below 256), every
precomputed range ends at or below 256, so `contains v = false` for every
`v ≥ 256`; the trailing-solve candidates the search feeds to `contains`
can therefore never be misclassified. -/
theorem C10_contains_false_above_255 (bs : List Nat) (A : Alphabet) (v : Nat)
    (h : Alphabet.new bs = some A) (hlt : ∀ b ∈ bs, b < 256) (hv : 256 ≤ v) :
    A.contains v = false :=
  contains_ge256 h hlt hv

/-- C10 witness: the engine's own alphabet at `v = 300`. -/
theorem C10_contains_false_above_255_witness : ALPHABET.contains 300 = false :=
  C10_contains_false_above_255 ALPHABET_BYTES ALPHABET 300 (by decide) (by decide)
    (by decide)

end FsHardblast
